import Mathlib

/-!
Shallow embedding of the resilient structured-extraction pipeline of the
roadgpt-backend repository (Go), together with proofs settling the frozen
claims about its specification.

Modelling conventions, used throughout:
* Go strings are modelled as Lean `String`/`List Char`.  The repository's
  inputs are ASCII, where Go's byte-oriented `len`/slicing and the
  character-oriented Lean operations coincide; comments note each place
  where the two could differ on non-ASCII input.
* Every completion-backend call (`GenerateContent` plus response assembly,
  sanitising and `json.Unmarshal`) is an external effect; an orchestrator is
  therefore modelled as a pure function of an explicit oracle recording, for
  each call the code can make, the parsed outcome that call chain produced.
  `none` stands for any failure (transport error, empty candidate/part list,
  unparseable output); `some v` for a successful parse yielding `v`.
* A Go slice value distinguishes `nil` from an empty slice only in its JSON
  encoding (`null` vs `[]`); `GoSlice` keeps that distinction because
  `json.Unmarshal` of the text `null` into a `[]T` yields a nil slice.
* The file `src/unnamed/part_000` genuinely contains doubled backslashes in
  most of its string literals (`"\\n"`, the `\\b...\\b` keyword patterns)
  alongside single ones (its `normalize`'s `"\n"` and `\s+`), so the doubled
  ones are file content, not an export artifact: each denotes an escaped
  literal backslash.  `chunkLikelyHasSectionHeader` is embedded accordingly:
  its keyword regexes match the literal text `\b<kw>\b` and its line split
  is on the literal two-character sequence `\n`.  Two of its neighbours are
  simplified to the sibling files' reading: `chunkText` joins pages with
  real newlines and `extractTextByPage` splits on newline-terminated
  `[PAGE:n]` markers; no settled conclusion depends on either (the chunking
  claims concern only page indices and termination, the orchestrator claims
  are parametric over the call oracle), and the concrete runs appearing in
  witnesses and counterexamples reach the same configurations either way.
-/

/-- Go `[]T` slice values: a nil slice differs from an empty one only in its
JSON encoding (`null` vs `[]`); length and iteration agree. -/
inductive GoSlice (α : Type) : Type where
  | goNil : GoSlice α
  | mk (elems : List α) : GoSlice α
deriving DecidableEq

/-- The elements a Go `range` loop sees: none for a nil slice. -/
def GoSlice.toList {α : Type} : GoSlice α → List α
  | .goNil => []
  | .mk l => l

/-- Whether `encoding/json` marshals this slice as the JSON value `null`. -/
def GoSlice.isNull {α : Type} : GoSlice α → Bool
  | .goNil => true
  | .mk _ => false

/-- Go `len` of the slice. -/
def GoSlice.len {α : Type} (s : GoSlice α) : Nat := s.toList.length

/-- The whitespace class shared by RE2's `\s` and (on ASCII input)
`strings.TrimSpace`: space, tab, newline, form feed, carriage return.
Vertical tab (0x0B) is omitted: `strings.TrimSpace`/`Fields` accept it
while RE2's `\s` does not, and no settled claim distinguishes it. -/
def goIsSpace (c : Char) : Bool :=
  c = ' ' || c = '\t' || c = '\n' || c = '\x0c' || c = '\r'

/-- RE2's `\w` class, used for the `\b` word boundaries of the section-header
keyword patterns. -/
def isWordChar (c : Char) : Bool := c.isAlphanum || c = '_'

/-- Leading whitespace removed (the left half of Go `strings.TrimSpace`). -/
def trimLeftChars (l : List Char) : List Char := l.dropWhile goIsSpace

/-- Trailing whitespace removed (the right half of Go `strings.TrimSpace`). -/
def trimRightChars (l : List Char) : List Char :=
  (l.reverse.dropWhile goIsSpace).reverse

/-- Go `strings.TrimSpace` on the character list of an (ASCII) string. -/
def trimChars (l : List Char) : List Char := trimRightChars (trimLeftChars l)

/-- Go `strings.TrimSpace`. -/
def goTrimSpace (s : String) : String := String.mk (trimChars s.data)

/-- Helper for `removeAll`: the pattern is `p :: ps`, guaranteeing progress.
Mirrors Go `strings.Replace(s, old, "", -1)`: one left-to-right scan of the
original string, skipping the pattern's length at each occurrence (the
output is never rescanned). -/
def removeAllAux (p : Char) (ps : List Char) : List Char → List Char
  | [] => []
  | c :: rest =>
    if (p :: ps).isPrefixOf (c :: rest) then removeAllAux p ps (rest.drop ps.length)
    else c :: removeAllAux p ps rest
termination_by l => l.length
decreasing_by
  all_goals simp [List.length_drop]
  all_goals omega

/-- Go `strings.ReplaceAll(s, pat, "")`. -/
def removeAll (pat : List Char) (l : List Char) : List Char :=
  match pat with
  | [] => l
  | p :: ps => removeAllAux p ps l

/-- The three-backtick code-fence marker. -/
def ticks : List Char := ['`', '`', '`']

/-- After `"```"` has matched, the length RE2's `(?:json)?\s*` consumes at the
front of the remainder: greedily the four characters of `json` when present,
then the whitespace run. -/
def fenceMatchLen (l : List Char) : Nat :=
  let j := if ("json".data).isPrefixOf l then 4 else 0
  j + ((l.drop j).takeWhile goIsSpace).length

/-- Go `regexp.MustCompile("` + "```" + `(?:json)?\s*").ReplaceAllString(s, "")`
(scope_of_work.go's fence stripper): one left-to-right scan deleting each
fence marker together with an optional `json` tag and trailing whitespace. -/
def stripFenceAux : List Char → List Char
  | [] => []
  | c :: rest =>
    if ticks.isPrefixOf (c :: rest) then
      stripFenceAux ((rest.drop 2).drop (fenceMatchLen (rest.drop 2)))
    else c :: stripFenceAux rest
termination_by l => l.length
decreasing_by
  all_goals simp [List.length_drop]
  all_goals omega

/-- gemini.go `cleanJSONResponse`: remove every `"```json"`, then every
`"```"`, then `strings.TrimSpace`. -/
def cleanJSONResponse (response : String) : String :=
  String.mk (trimChars (removeAll ticks (removeAll ("```json".data) response.data)))

/-- scope_of_work.go `(*SOWExtractor).cleanModelOutput`: empty input returns
empty; otherwise the fence regex `"```(?:json)?\s*"` is deleted everywhere,
then every remaining `"```"`, then `strings.TrimSpace`. -/
def cleanModelOutput (raw : String) : String :=
  if raw = "" then ""
  else String.mk (trimChars (removeAll ticks (stripFenceAux raw.data)))

/-- Go `strings.Fields`: the maximal runs of non-whitespace characters. -/
def fieldsChars (l : List Char) : List (List Char) :=
  (l.splitOnP fun c => goIsSpace c).filter (· ≠ [])

/-- Collapse every whitespace run to one space (the regex
`\s+` -> `" "` replacement inside `normalize`); the flag records whether the
previous character was whitespace. -/
def collapseWsAux : Bool → List Char → List Char
  | _, [] => []
  | inRun, c :: rest =>
    if goIsSpace c then
      if inRun then collapseWsAux true rest
      else ' ' :: collapseWsAux true rest
    else c :: collapseWsAux false rest

def collapseWs (l : List Char) : List Char := collapseWsAux false l

/-- part_000 `minInt` (on the non-negative values it is applied to). -/
def minInt (a b : Nat) : Nat := if a < b then a else b

namespace P0

/-- The `normalize` closure of `programmaticAggregate` (part_000 and
sectionwise.go): lower-case the whitespace-collapsed, trimmed string. -/
def normalize (s : String) : String :=
  String.mk ((collapseWs (trimChars s.data)).map Char.toLower)

/-- part_000 `KeyConsideration`. -/
structure KeyConsideration where
  consideration : String
  isCritical : Bool
  pageNumbers : List Int
deriving DecidableEq

/-- part_000 `SectionAnalysis`. -/
structure SectionAnalysis where
  sectionName : String
  sectionSummary : String
  keyConsiderations : List KeyConsideration
deriving DecidableEq

/-- part_000 `OptimizedChunk`. -/
structure OptimizedChunk where
  startPage : Nat
  endPage : Nat
  text : String
  pageRange : String
deriving DecidableEq

/-- part_000 `SectionwiseResult`.  `RawSingle` (the raw text of a successful
single call) is not tracked by the call oracle and is omitted;
`SectionsCount`/`CompletedSectionCount` are never assigned in the source. -/
structure SectionwiseResult where
  mode : String
  final : GoSlice SectionAnalysis
  processedChunks : Nat
deriving DecidableEq

/-- The service handle: only the nil-ness of the three fields is observable
in the orchestrator (`gemini client not initialized` check). -/
structure GeminiService where
  client : Option Unit
  proModel : Option Unit
  flashModel : Option Unit

/-- The chunk text `makeChunksFromPages` builds: each page of `[start, e)`
prefixed by its `[PAGE:n]` marker, pages joined by blank lines. -/
def chunkText (pageTexts : List String) (start e : Nat) : String :=
  String.intercalate "\n\n" ((List.range (e - start)).map fun k =>
    "[PAGE:" ++ toString (start + k + 1) ++ "]\n" ++ pageTexts.getD (start + k) "")

/-- The chunk one iteration of the Go loop body appends, for loop index
`start`: pages `[start, end)` with `end = min(n, start+pagesPerChunk)`,
1-based page numbers and the `"start-end"` dedup key. -/
def chunkAt (pageTexts : List String) (pagesPerChunk start : Nat) : OptimizedChunk :=
  { startPage := start + 1,
    endPage := min pageTexts.length (start + pagesPerChunk),
    text := chunkText pageTexts start (min pageTexts.length (start + pagesPerChunk)),
    pageRange :=
      toString (start + 1) ++ "-" ++ toString (min pageTexts.length (start + pagesPerChunk)) }

/-- The loop of `makeChunksFromPages`, with explicit fuel: the Go loop
`for i < n` has no structural termination measure (claim C3), so the model
returns `none` when the fuel is exhausted before the loop exits; any fuel at
least the number of iterations the Go loop performs gives `some`.  The index
is an `Int` because Go's `i = end - overlapPages` can go negative; a negative
index makes the Go page indexing panic (for `pagesPerChunk ≥ 1`), modelled as
`none` as well. -/
def makeChunksLoop (pageTexts : List String) (pagesPerChunk overlapPages : Nat) :
    Nat → Int → Option (List OptimizedChunk)
  | 0, _ => none
  | fuel + 1, i =>
    if i < (pageTexts.length : Int) then
      if i < 0 then none
      else
        if min pageTexts.length (i.toNat + pagesPerChunk) = pageTexts.length then
          some [chunkAt pageTexts pagesPerChunk i.toNat]
        else
          (makeChunksLoop pageTexts pagesPerChunk overlapPages fuel
            (Int.ofNat (min pageTexts.length (i.toNat + pagesPerChunk)) -
              Int.ofNat overlapPages)).map (chunkAt pageTexts pagesPerChunk i.toNat :: ·)
    else some []

/-- part_000 `makeChunksFromPages` (the same control flow as the
scope_of_work.go and part_003 copies): `none` means the Go loop did not exit
normally within `fuel` iterations. -/
def makeChunksFromPages (pageTexts : List String)
    (pagesPerChunk overlapPages fuel : Nat) : Option (List OptimizedChunk) :=
  if pageTexts.length = 0 then some []
  else makeChunksLoop pageTexts pagesPerChunk overlapPages fuel 0

/-- The chunk list the orchestrators use; fuel `n + 1` suffices for the
parameters `(6, 1)` they pass (see `makeChunksFromPages_total`). -/
def makeChunksTotal (pageTexts : List String) (pagesPerChunk overlapPages : Nat) :
    List OptimizedChunk :=
  (makeChunksFromPages pageTexts pagesPerChunk overlapPages (pageTexts.length + 1)).getD []

/-- Recognise the regex `\[PAGE:(\d+)\]` at the head of the list, returning
the remainder after the marker. -/
def matchPageMarker (l : List Char) : Option (List Char) :=
  match l with
  | '[' :: 'P' :: 'A' :: 'G' :: 'E' :: ':' :: rest =>
    let digits := rest.takeWhile Char.isDigit
    if digits = [] then none
    else
      match rest.drop digits.length with
      | ']' :: after => some after
      | _ => none
  | _ => none

/-- The text before the first page marker and the remainder after it, or
`none` when no marker occurs. -/
def findPageMarker : List Char → Option (List Char × List Char)
  | [] => none
  | c :: rest =>
    match matchPageMarker (c :: rest) with
    | some after => some ([], after)
    | none =>
      match findPageMarker rest with
      | some (before, after) => some (c :: before, after)
      | none => none

/-- `regexp.Split` on the page-marker pattern, with fuel (a marker is at
least 8 characters, so fuel `l.length + 1` always suffices). -/
def splitPageMarkers : Nat → List Char → List (List Char)
  | 0, l => [l]
  | fuel + 1, l =>
    match findPageMarker l with
    | none => [l]
    | some (before, after) => before :: splitPageMarkers fuel after

/-- part_000 `extractTextByPage`: split on `[PAGE:n]` markers, dropping the
part before the first marker (the Go guard `!pageRegex.MatchString(...)`
tests the text before the first match, which never contains a match, so the
first part is always dropped) and trimming the rest; when no page resulted,
fall back to 3000-character slices of the document. -/
def extractTextByPage (documentText : String) : List String :=
  let parts := splitPageMarkers (documentText.data.length + 1) documentText.data
  let pages := (parts.drop 1).map fun p => String.mk (trimChars p)
  if pages.length = 0 then
    (List.range ((documentText.data.length + 2999) / 3000)).map fun i =>
      String.mk ((documentText.data.drop (i * 3000)).take 3000)
  else pages

/-- The eleven section-header phrases of part_000's `sectionHeaderKeywords`.
The staged patterns read `\\b<phrase>\\b`: under RE2 a doubled backslash is
an escaped literal backslash, so each pattern matches the *literal text*
`\b<phrase>\b` (built by `kwLiteral`), not a word-boundary-delimited
phrase. -/
def sectionHeaderKeywords : List String :=
  ["rfp", "section", "scope", "scope of work", "project overview",
   "major work", "technical standard", "section-wise", "eligibility",
   "section wise", "rfp section"]

/-- The literal character sequence the staged pattern `\\b<kw>\\b`
matches: a backslash, `b`, the phrase, a backslash, `b`. -/
def kwLiteral (kw : String) : List Char :=
  '\\' :: 'b' :: kw.data ++ ['\\', 'b']

/-- Plain contiguous-subsequence search, which is all the staged all-literal
patterns amount to under RE2. -/
def containsSeq (pat : List Char) : List Char → Bool
  | [] => decide (pat = [])
  | c :: rest => pat.isPrefixOf (c :: rest) || containsSeq pat rest

/-- Go `strings.Split(s, "\\n")` as staged: split on the literal
two-character sequence backslash-`n`, not on newlines. -/
def splitLitNl : List Char → List (List Char)
  | [] => [[]]
  | '\\' :: 'n' :: rest => [] :: splitLitNl rest
  | c :: rest =>
    match splitLitNl rest with
    | [] => [[c]]
    | l :: ls => (c :: l) :: ls

/-- part_000 `chunkLikelyHasSectionHeader` as staged: a keyword-pattern hit
on the lower-cased text -- each pattern matching the literal text
`\b<kw>\b` -- else an all-caps heading among the pieces of the text split on
the literal sequence `\n` (trimmed length in `[4,120]` -- Go counts bytes,
here characters, equal on ASCII -- equal to its own upper-casing, fewer than
12 fields). -/
def chunkLikelyHasSectionHeader (chunkText : String) : Bool :=
  let s := chunkText.data.map Char.toLower
  sectionHeaderKeywords.any (fun kw => containsSeq (kwLiteral kw) s) ||
    (splitLitNl chunkText.data).any fun line =>
      let l := trimChars line
      decide (4 ≤ l.length) && decide (l.length ≤ 120) &&
        decide (l = l.map Char.toUpper) && decide ((fieldsChars l).length < 12)

/-- RE2 `\b`: exactly one side is a word character (an absent neighbour
counts as non-word).  Used only by the spec-side heuristic below. -/
def wordBoundary (a b : Option Char) : Bool :=
  (a.elim false isWordChar) != (b.elim false isWordChar)

/-- The pattern occurs at this position with `\b` satisfied on both sides
(`prev` is the character just before the position, if any). -/
def wordMatchHere (kw : List Char) (prev : Option Char) (t : List Char) : Bool :=
  kw.isPrefixOf t && wordBoundary prev kw.head? &&
    wordBoundary kw.getLast? (t.drop kw.length).head?

def containsWordAux (kw : List Char) : Option Char → List Char → Bool
  | prev, [] => wordMatchHere kw prev []
  | prev, c :: rest => wordMatchHere kw prev (c :: rest) || containsWordAux kw (some c) rest

/-- RE2 `MatchString` of a genuine `\b<kw>\b` against `s`. -/
def containsWord (s kw : String) : Bool := containsWordAux kw.data none s.data

/-- The *claim's wording* of the heuristic, stated only to be compared with
the staged `chunkLikelyHasSectionHeader`: the keyword phrases as genuine
word-boundary regexes `\b<kw>\b` over the lower-cased text, lines delimited
by real newlines, and the same all-caps test. -/
def specChunkLikelyHasSectionHeader (chunkText : String) : Bool :=
  let s := String.mk (chunkText.data.map Char.toLower)
  sectionHeaderKeywords.any (fun kw => containsWord s kw) ||
    (chunkText.data.splitOnP fun c => c = '\n').any fun line =>
      let l := trimChars line
      decide (4 ≤ l.length) && decide (l.length ≤ 120) &&
        decide (l = l.map Char.toUpper) && decide ((fieldsChars l).length < 12)

/-- The candidate accumulation loop of `filterCandidateChunks`. -/
def candidateLoop (chunks : List OptimizedChunk) : List OptimizedChunk :=
  chunks.foldl (fun acc c => if chunkLikelyHasSectionHeader c.text then acc ++ [c] else acc) []

/-- part_000 `filterCandidateChunks`: the flagged chunks, or the whole input
list when none is flagged. -/
def filterCandidateChunks (chunks : List OptimizedChunk) : List OptimizedChunk :=
  let candidates := candidateLoop chunks
  if candidates = [] then chunks else candidates

/-- Per-request state of part_000's chunk loop (the Go variables
`processedCount`, `consecutiveNoNew`, `processedChunks` and `chunkResults`),
plus a ghost trace `attempted` of the candidate positions for which the
backend was actually called, used to state the early-stop claim. -/
structure LoopState where
  processedCount : Nat
  consecutiveNoNew : Nat
  processedKeys : List String
  results : List (List SectionAnalysis)
  attempted : List Nat
deriving DecidableEq

def initState : LoopState := ⟨0, 0, [], [], []⟩

/-- The retry loop inside the chunk loop: attempts `0 .. maxRetries` in
order; the first attempt whose outcome parses to a non-empty section list
succeeds with that list, otherwise the chunk fails.  `attempt r` is the
oracle outcome of retry `r`: `none` for a call error, an empty response or
unparseable output; `some gs` for output parsed as the slice `gs`. -/
def retryResult (attempt : Nat → Option (GoSlice SectionAnalysis)) (maxRetries : Nat) :
    Option (List SectionAnalysis) :=
  (List.range (maxRetries + 1)).findSome? fun r =>
    match attempt r with
    | some gs => if 0 < gs.len then some gs.toList else none
    | none => none

/-- One iteration of the chunk loop: skip an already-processed page range;
otherwise count and key the chunk, run the retries, and either record the
partial result and reset the consecutive-failure counter, or increment the
counter.  The second component is the early-stop test
`consecutiveNoNew >= maxConsecutiveNoNew` Go runs after the body (`continue`
on the skip path bypasses it). -/
def chunkStep (attempt : Nat → Nat → Option (GoSlice SectionAnalysis))
    (maxRetries maxConsecutiveNoNew : Nat) (ic : Nat × OptimizedChunk)
    (st : LoopState) : LoopState × Bool :=
  if st.processedKeys.contains ic.2.pageRange then (st, false)
  else
    let st1 : LoopState :=
      { processedCount := st.processedCount + 1,
        consecutiveNoNew := st.consecutiveNoNew,
        processedKeys := ic.2.pageRange :: st.processedKeys,
        results := st.results,
        attempted := st.attempted ++ [ic.1] }
    let st2 : LoopState :=
      match retryResult (attempt ic.1) maxRetries with
      | some secs => { st1 with results := st1.results ++ [secs], consecutiveNoNew := 0 }
      | none => { st1 with consecutiveNoNew := st1.consecutiveNoNew + 1 }
    (st2, decide (maxConsecutiveNoNew ≤ st2.consecutiveNoNew))

/-- part_000's chunk loop over the candidate chunks (listed with their
positions), stopping early when the flag fires. -/
def chunkLoop (attempt : Nat → Nat → Option (GoSlice SectionAnalysis))
    (maxRetries maxConsecutiveNoNew : Nat) :
    List (Nat × OptimizedChunk) → LoopState → LoopState
  | [], st => st
  | ic :: rest, st =>
    let p := chunkStep attempt maxRetries maxConsecutiveNoNew ic st
    if p.2 then p.1 else chunkLoop attempt maxRetries maxConsecutiveNoNew rest p.1

/-- The grouping key of `programmaticAggregate`: the normalized section
name, else the normalized first 50 bytes of the summary (bytes and
characters coincide on ASCII input). -/
def sectionKey (s : SectionAnalysis) : String :=
  let k := normalize s.sectionName
  if k = "" then
    normalize (String.mk (s.sectionSummary.data.take (minInt 50 s.sectionSummary.data.length)))
  else k

/-- Appending a later section's considerations to a group: Go builds the set
of normalized texts already present, then appends each incoming
consideration whose normalized text is unseen, recording it as seen. -/
def dedupAppend (existing newKCs : List KeyConsideration) : List KeyConsideration :=
  (newKCs.foldl
    (fun acc kc =>
      if acc.2.contains (normalize kc.consideration) then acc
      else (acc.1 ++ [kc], acc.2 ++ [normalize kc.consideration]))
    (existing, existing.map fun kc => normalize kc.consideration)).1

/-- Merging a later section into the group's accumulated section: keep the
strictly longer summary (first seen wins ties), extend the deduplicated
considerations; the stored name stays the first-seen one. -/
def mergeSection (existing s : SectionAnalysis) : SectionAnalysis :=
  { sectionName := existing.sectionName,
    sectionSummary :=
      if existing.sectionSummary.data.length < s.sectionSummary.data.length
      then s.sectionSummary else existing.sectionSummary,
    keyConsiderations := dedupAppend existing.keyConsiderations s.keyConsiderations }

/-- Insert one section into the keyed accumulator (Go's `merged` map with
in-place pointer update; here an association list in first-insertion order,
which fixes the output order Go's map iteration leaves unspecified -- no
claim settled here depends on that order). -/
def aggInsert (m : List (String × SectionAnalysis)) (s : SectionAnalysis) :
    List (String × SectionAnalysis) :=
  let key := sectionKey s
  if key = "" then m
  else if (m.map Prod.fst).contains key then
    m.map fun kv => if kv.1 = key then (kv.1, mergeSection kv.2 s) else kv
  else m ++ [(key, s)]

/-- The accumulator after all chunk results are folded in. -/
def aggMerged (chunkResults : List (List SectionAnalysis)) :
    List (String × SectionAnalysis) :=
  chunkResults.foldl (fun m chunk => chunk.foldl aggInsert m) []

/-- part_000 / sectionwise.go `programmaticAggregate` (the two copies differ
only in the consideration field's name). -/
def programmaticAggregate (chunkResults : List (List SectionAnalysis)) :
    List SectionAnalysis :=
  (aggMerged chunkResults).map Prod.snd

/-- The observable outcomes of the backend calls one run of part_000's
`ExtractSectionwiseAnalysis` can make: the two single-document calls, each
chunk attempt (indexed by candidate position and retry number) and the
aggregation call. -/
structure Oracle where
  primary : Option (GoSlice SectionAnalysis)
  secondary : Option (GoSlice SectionAnalysis)
  chunkAttempt : Nat → Nat → Option (GoSlice SectionAnalysis)
  aggregate : Option (GoSlice SectionAnalysis)

/-- A single-call branch succeeds when call and parse succeeded and the
parsed list is non-empty. -/
def checkSingle (o : Option (GoSlice SectionAnalysis)) : Option (GoSlice SectionAnalysis) :=
  match o with
  | some gs => if 0 < gs.len then some gs else none
  | none => none

/-- part_000 `aggregateChunksWithModel`: marshalling the collected results
always succeeds, so with a non-empty result list the outcome is the
aggregation call's parse outcome.  Note: no non-emptiness check on the
parsed value. -/
def aggregateChunksWithModel (o : Oracle) (chunkResults : List (List SectionAnalysis)) :
    Option (GoSlice SectionAnalysis) :=
  if chunkResults = [] then none else o.aggregate

/-- The entry check `g.client == nil || g.proModel == nil || g.flashModel == nil`. -/
def configured (g : GeminiService) : Bool :=
  g.client.isSome && g.proModel.isSome && g.flashModel.isSome

/-- The candidate chunk list of the chunked stage for a document. -/
def candidateList (documentText : String) : List OptimizedChunk :=
  filterCandidateChunks (makeChunksTotal (extractTextByPage documentText) 6 1)

/-- part_000 `ExtractSectionwiseAnalysis` as a function of the backend
oracle: primary single call, secondary single call, then chunked extraction
(pages, chunks `(6,1)`, candidate filter, retry loop with
`maxRetries = 2` and `maxConsecutiveNoNew = 6`), then model aggregation with
programmatic fallback.  Both aggregation branches return mode
`"chunk_optimized"` in this copy of the pipeline. -/
def ExtractSectionwiseAnalysis (g : GeminiService) (o : Oracle) (documentText : String) :
    Except String SectionwiseResult :=
  if configured g = false then Except.error "gemini client not initialized"
  else
    match checkSingle o.primary with
    | some gs => Except.ok { mode := "single_primary", final := gs, processedChunks := 0 }
    | none =>
      match checkSingle o.secondary with
      | some gs => Except.ok { mode := "single_secondary", final := gs, processedChunks := 0 }
      | none =>
        let st := chunkLoop o.chunkAttempt 2 6 (candidateList documentText).enum initState
        if st.results = [] then
          Except.ok { mode := "chunk_failed", final := GoSlice.mk [],
                      processedChunks := st.processedCount }
        else
          match aggregateChunksWithModel o st.results with
          | some gs =>
            Except.ok { mode := "chunk_optimized", final := gs, processedChunks := 0 }
          | none =>
            Except.ok { mode := "chunk_optimized",
                        final := GoSlice.mk (programmaticAggregate st.results),
                        processedChunks := 0 }

end P0

/-- Go `strings.ToLower` on ASCII text. -/
def toLowerStr (s : String) : String := String.mk (s.data.map Char.toLower)

namespace SW

/-- sectionwise.go `KeyConsideration`. -/
structure KeyConsideration where
  text : String
  critical : Bool
  page : String
deriving DecidableEq

/-- sectionwise.go `SectionAnalysis`. -/
structure SectionAnalysis where
  sectionName : String
  sectionSummary : String
  keyConsiderations : List KeyConsideration
deriving DecidableEq

/-- sectionwise.go `SectionwiseResult` (`RawSingle` omitted, as for part_000). -/
structure SectionwiseResult where
  mode : String
  final : GoSlice SectionAnalysis
deriving DecidableEq

/-- The `normalize` closure of sectionwise.go's `programmaticAggregate`: the
same code as part_000's. -/
def normalize (s : String) : String := P0.normalize s

/-- sectionwise.go grouping key: normalized name, else normalized first 50
bytes of the summary. -/
def sectionKey (s : SectionAnalysis) : String :=
  let k := normalize s.sectionName
  if k = "" then
    normalize (String.mk (s.sectionSummary.data.take (minInt 50 s.sectionSummary.data.length)))
  else k

/-- sectionwise.go consideration dedup (keyed on the `Text` field). -/
def dedupAppend (existing newKCs : List KeyConsideration) : List KeyConsideration :=
  (newKCs.foldl
    (fun acc kc =>
      if acc.2.contains (normalize kc.text) then acc
      else (acc.1 ++ [kc], acc.2 ++ [normalize kc.text]))
    (existing, existing.map fun kc => normalize kc.text)).1

def mergeSection (existing s : SectionAnalysis) : SectionAnalysis :=
  { sectionName := existing.sectionName,
    sectionSummary :=
      if existing.sectionSummary.data.length < s.sectionSummary.data.length
      then s.sectionSummary else existing.sectionSummary,
    keyConsiderations := dedupAppend existing.keyConsiderations s.keyConsiderations }

def aggInsert (m : List (String × SectionAnalysis)) (s : SectionAnalysis) :
    List (String × SectionAnalysis) :=
  let key := sectionKey s
  if key = "" then m
  else if (m.map Prod.fst).contains key then
    m.map fun kv => if kv.1 = key then (kv.1, mergeSection kv.2 s) else kv
  else m ++ [(key, s)]

/-- sectionwise.go `programmaticAggregate`. -/
def programmaticAggregate (chunkResults : List (List SectionAnalysis)) :
    List SectionAnalysis :=
  (chunkResults.foldl (fun m chunk => chunk.foldl aggInsert m) []).map Prod.snd

/-- Outcome of one sectionwise.go model call.  Go distinguishes a returned
error (which alone triggers the pro-to-flash fallback) from a response that
is empty or unparseable (`ok none`). -/
inductive SWCall where
  | err : SWCall
  | ok (parsed : Option (GoSlice SectionAnalysis)) : SWCall

/-- The observable outcomes of the backend calls one run of sectionwise.go's
`ExtractSectionwiseAnalysis` can make. -/
structure Oracle where
  pro : SWCall
  flash : SWCall
  chunk : Nat → Option (GoSlice SectionAnalysis)
  aggregate : Option (GoSlice SectionAnalysis)

/-- The single-call stage: pro first; only on a returned error is flash
tried over the same prompt (an empty or unparseable pro response skips
straight to chunking). -/
def singleOutcome (pro flash : SWCall) : Option (GoSlice SectionAnalysis) :=
  match pro with
  | .ok p => p
  | .err =>
    match flash with
    | .ok p => p
    | .err => none

/-- sectionwise.go `createDocumentChunks`: the Fields of the text grouped
`chunkSize` words at a time (the parameter counts words, not characters,
despite the call-site comment), joined by single spaces.  The Go loop with
`chunkSize <= 0` never advances; the only call passes 3000. -/
def createDocumentChunks (text : String) (chunkSize : Nat) : List String :=
  if chunkSize = 0 then []
  else
    let words := (fieldsChars text.data).map String.mk
    (List.range ((words.length + chunkSize - 1) / chunkSize)).map fun i =>
      String.intercalate " " ((words.drop (i * chunkSize)).take chunkSize)

/-- The partial results of sectionwise.go's chunk loop: each chunk is called
once (no retry, no dedup, no early stop in this copy); any parse success is
appended -- note the missing non-emptiness check, so even a `null` or `[]`
parse contributes a partial. -/
def chunkResults (o : Oracle) (documentText : String) : List (GoSlice SectionAnalysis) :=
  ((createDocumentChunks documentText 3000).enum).foldl
    (fun acc ic =>
      match o.chunk ic.1 with
      | some gs => acc ++ [gs]
      | none => acc) []

/-- Steps 2 and 3 of sectionwise.go's orchestrator: chunked extraction, then
model aggregation with programmatic fallback. -/
def chunkedStage (o : Oracle) (documentText : String) : SectionwiseResult :=
  let rs := chunkResults o documentText
  if rs = [] then { mode := "chunk_failed", final := GoSlice.mk [] }
  else
    match o.aggregate with
    | some gs => { mode := "chunk_model_aggregate", final := gs }
    | none =>
      { mode := "chunk_programmatic_aggregate",
        final := GoSlice.mk (programmaticAggregate (rs.map GoSlice.toList)) }

/-- sectionwise.go `ExtractSectionwiseAnalysis` as a function of the backend
oracle.  A successful single call needs a non-empty parsed list; otherwise
the chunked stage decides the result. -/
def ExtractSectionwiseAnalysis (g : P0.GeminiService) (o : Oracle) (documentText : String) :
    Except String SectionwiseResult :=
  if P0.configured g = false then Except.error "Gemini client not initialized"
  else
    match singleOutcome o.pro o.flash with
    | some gs =>
      if 0 < gs.len then Except.ok { mode := "single_call", final := gs }
      else Except.ok (chunkedStage o documentText)
    | none => Except.ok (chunkedStage o documentText)

end SW

namespace SOW

/-- scope_of_work.go `ProjectOverview`. -/
structure ProjectOverview where
  projectName : String
  location : String
  totalLength : String
  projectDuration : String
  contractValue : String
deriving DecidableEq

/-- scope_of_work.go `MajorWorkComponent`. -/
structure MajorWorkComponent where
  sNo : String
  workDescription : String
  quantitySpecification : String
  unit : String
deriving DecidableEq

/-- scope_of_work.go `TechnicalStandard`. -/
structure TechnicalStandard where
  component : String
  standardSpecification : String
  complianceRequired : String
deriving DecidableEq

/-- scope_of_work.go `ScopeOfWorkData`. -/
structure ScopeOfWorkData where
  projectOverview : ProjectOverview
  majorWorkComponents : List MajorWorkComponent
  technicalStandards : List TechnicalStandard
deriving DecidableEq

/-- scope_of_work.go `SOWExtractionResult`.  `RawSingle` (raw call text) is
not tracked by the oracle; the `Error` field is never assigned in
`ExtractSOW` (errors travel in the Go error return, modelled by `Except`). -/
structure SOWExtractionResult where
  mode : String
  final : ScopeOfWorkData
  chunkParsedList : List ScopeOfWorkData
deriving DecidableEq

/-- The empty placeholder `ExtractSOW` appends for a failed chunk. -/
def emptySOW : ScopeOfWorkData :=
  { projectOverview := { projectName := "", location := "", totalLength := "",
                         projectDuration := "", contractValue := "" },
    majorWorkComponents := [], technicalStandards := [] }

/-- The observable outcomes of the calls one `ExtractSOW` run can make
(`callModelForPrompt` bundles call, sanitize and parse: `none` is any
failure). -/
structure Oracle where
  single : Option ScopeOfWorkData
  chunk : Nat → Option ScopeOfWorkData
  aggregate : Option ScopeOfWorkData

/-- Generic first-seen dedup keyed by a string, as in `programmaticMerge`'s
`seenMW`/`seenTS` maps. -/
def dedupBy {β : Type} (key : β → String) (items : List β) : List β :=
  (items.foldl
    (fun acc it =>
      if acc.2.contains (key it) then acc else (acc.1 ++ [it], acc.2 ++ [key it]))
    ([], [])).1

/-- The composite dedup key of a major work component,
`strings.ToLower(fmt.Sprintf("%s|%s|%s|%s", ...))`. -/
def mwKey (i : MajorWorkComponent) : String :=
  toLowerStr (i.sNo ++ "|" ++ i.workDescription ++ "|" ++ i.quantitySpecification ++ "|" ++ i.unit)

/-- The composite dedup key of a technical standard. -/
def tsKey (i : TechnicalStandard) : String :=
  toLowerStr (i.component ++ "|" ++ i.standardSpecification ++ "|" ++ i.complianceRequired)

/-- One overview field of `programmaticMerge`: the first chunk value that is
non-empty (the fold keeps the accumulator once set). -/
def firstNonEmpty (vals : List String) : String :=
  vals.foldl (fun acc v => if acc = "" && v ≠ "" then v else acc) ""

/-- scope_of_work.go `programmaticMerge`: first non-empty value per overview
field; list fields concatenated in chunk order and deduplicated by their
lower-cased composite key. -/
def programmaticMerge (chunkResults : List ScopeOfWorkData) : ScopeOfWorkData :=
  { projectOverview :=
      { projectName := firstNonEmpty (chunkResults.map (·.projectOverview.projectName)),
        location := firstNonEmpty (chunkResults.map (·.projectOverview.location)),
        totalLength := firstNonEmpty (chunkResults.map (·.projectOverview.totalLength)),
        projectDuration := firstNonEmpty (chunkResults.map (·.projectOverview.projectDuration)),
        contractValue := firstNonEmpty (chunkResults.map (·.projectOverview.contractValue)) },
    majorWorkComponents := dedupBy mwKey (chunkResults.flatMap (·.majorWorkComponents)),
    technicalStandards := dedupBy tsKey (chunkResults.flatMap (·.technicalStandards)) }

/-- scope_of_work.go `ExtractSOW` as a function of the oracle: the only
error return is the zero-pages entry check; a failed single call falls into
chunked extraction (chunks of `(6, 1)` pages, built by the same loop as
part_000's `makeChunksFromPages`; scope_of_work.go represents a chunk as a
map with the fields start_page/end_page/text, the model reuses
`P0.OptimizedChunk` whose extra `pageRange` field `ExtractSOW` never reads),
each failed chunk contributing `emptySOW`, then model aggregation with
`programmaticMerge` as fallback. -/
def ExtractSOW (o : Oracle) (pages : List String) : Except String SOWExtractionResult :=
  if pages.length = 0 then Except.error "no pages provided"
  else
    match o.single with
    | some parsed => Except.ok { mode := "single_call", final := parsed, chunkParsedList := [] }
    | none =>
      let chunks := P0.makeChunksTotal pages 6 1
      let rs := chunks.enum.map fun ic => (o.chunk ic.1).getD emptySOW
      match o.aggregate with
      | some agg =>
        Except.ok { mode := "chunk_aggregate_model", final := agg, chunkParsedList := rs }
      | none =>
        Except.ok { mode := "chunk_aggregate_programmatic", final := programmaticMerge rs,
                    chunkParsedList := rs }

end SOW

namespace VS

/-- part_004 `DocumentChunk`.  The `Embedding []float64` field is omitted:
floating-point vectors are outside every claim settled here, and
`generateSimpleEmbedding` normalizes by an irrational `math.Sqrt`. -/
structure DocumentChunk where
  id : String
  content : String
  pageNum : Nat
deriving DecidableEq

/-- part_004 `Document`, generic over the type standing for
`map[string]interface{}` metadata. -/
structure Document (M : Type) where
  id : String
  content : String
  metadata : M
  chunks : List DocumentChunk

/-- One step of part_001 `ChunkText`'s builder loop: flush the current chunk
when the word would push it past `max` (only when non-empty), then append
the word, space-separated when the chunk is non-empty. -/
def chunkTextStep (max : Nat) (acc : List String × List Char) (word : List Char) :
    List String × List Char :=
  let flush := max < acc.2.length + word.length + 1 && acc.2 ≠ []
  let chunks := if flush then acc.1 ++ [String.mk (trimChars acc.2)] else acc.1
  let cur := if flush then [] else acc.2
  (chunks, if cur ≠ [] then cur ++ ' ' :: word else word)

/-- part_001 `(*PDFParser).ChunkText`: split into words, greedily pack them
into chunks of at most `maxChunkSize` characters (a single over-long word
still forms its own chunk), flushing the trimmed remainder at the end.  The
Go guard `maxChunkSize <= 0` defaults to 4000; `AddDocument` passes 1000. -/
def ChunkText (text : String) (maxChunkSize : Nat) : List String :=
  let max := if maxChunkSize = 0 then 4000 else maxChunkSize
  let r := (fieldsChars text.data).foldl (chunkTextStep max) ([], [])
  if r.2 ≠ [] then r.1 ++ [String.mk (trimChars r.2)] else r.1

/-- Go map assignment `vs.documents[docID] = document`: replace the entry
when the key exists, append it otherwise (association list in insertion
order). -/
def mapInsert {M : Type} (m : List (String × Document M)) (k : String)
    (v : Document M) : List (String × Document M) :=
  if (m.map Prod.fst).contains k then m.map fun p => if p.1 = k then (k, v) else p
  else m ++ [(k, v)]

/-- One hex digit of `fmt.Sprintf("%x", ...)` (lower case). -/
def hexDigitChar (n : Nat) : Char :=
  if n < 10 then Char.ofNat (48 + n) else Char.ofNat (87 + n)

/-- `fmt.Sprintf("%x", bytes)`: two lower-case hex digits per byte. -/
def hexOfBytes (bs : List Nat) : String :=
  String.mk (bs.flatMap fun b => [hexDigitChar (b % 256 / 16), hexDigitChar (b % 16)])

/-- part_004 `(*VectorStore).AddDocument`.  `crypto/md5` is Go standard
library, not repository code; the digest function is therefore a parameter
`md5sum` (content to 16 digest bytes), composed with the concrete hex
formatting.  Returns the document ID and the updated store (the Go method
mutates `vs.documents` under its lock and returns a nil error). -/
def AddDocument {M : Type} (md5sum : String → List Nat)
    (store : List (String × Document M)) (content : String) (metadata : M) :
    String × List (String × Document M) :=
  let docID := hexOfBytes (md5sum content)
  let chunks := ChunkText content 1000
  let documentChunks := chunks.enum.map fun ic =>
    DocumentChunk.mk (docID ++ "_chunk_" ++ toString ic.1) ic.2 (ic.1 + 1)
  let document : Document M :=
    { id := docID, content := content, metadata := metadata, chunks := documentChunks }
  (docID, mapInsert store docID document)

/-- The store invariant `AddDocument` maintains: every entry is keyed by the
hex digest of its document's content (and carries that key as its `ID`). -/
def StoreInv {M : Type} (md5sum : String → List Nat)
    (store : List (String × Document M)) : Prop :=
  ∀ p ∈ store, p.1 = hexOfBytes (md5sum p.2.content) ∧ p.2.id = p.1

end VS

/-- The pattern occurs contiguously inside the list. -/
def seqIn (pat l : List Char) : Prop := ∃ a b, l = a ++ pat ++ b

def isTick (c : Char) : Bool := c = '`'

/-- Length of the leading backtick run. -/
def leadTicks (l : List Char) : Nat := (l.takeWhile isTick).length

/-- Spec-side reading of "the longest summary in the group with first-seen
winning ties" (claim C6): the first element of the list whose length no
other element exceeds.  Stated from the claim's words, to be compared with
the fold `programmaticAggregate` actually performs. -/
def specLongestFirst (l : List String) : Option String :=
  l.find? fun u => l.all fun v => v.data.length ≤ u.data.length

/-- Divergence of the chunking loop (claim C3): no amount of fuel makes the
loop exit, i.e. the Go `for i < n` loop runs forever. -/
def makeChunksDiverges (pages : List String) (pagesPerChunk overlapPages : Nat) : Prop :=
  ∀ fuel, P0.makeChunksFromPages pages pagesPerChunk overlapPages fuel = none

/-- Ten chunks with distinct page-range keys, listed with their candidate
positions: the working list of claim C4's ten-chunk scenario. -/
def tenChunksIndexed : List (Nat × P0.OptimizedChunk) :=
  [(0, ⟨1, 1, "", "1"⟩), (1, ⟨2, 2, "", "2"⟩), (2, ⟨3, 3, "", "3"⟩),
   (3, ⟨4, 4, "", "4"⟩), (4, ⟨5, 5, "", "5"⟩), (5, ⟨6, 6, "", "6"⟩),
   (6, ⟨7, 7, "", "7"⟩), (7, ⟨8, 8, "", "8"⟩), (8, ⟨9, 9, "", "9"⟩),
   (9, ⟨10, 10, "", "10"⟩)]

/-- Claim C4's scenario oracle: chunks 1-3 (positions 0-2) parse to a
non-empty section list on the first attempt, chunks 4-10 fail every
attempt. -/
def c4Attempt : Nat → Nat → Option (GoSlice P0.SectionAnalysis) :=
  fun i _ => if i < 3 then some (GoSlice.mk [⟨"S", "x", []⟩]) else none

/-! ## Lemmas: list scaffolding for the sanitizer proofs -/

theorem dropWhile_length_le (p : Char → Bool) (l : List Char) :
    (l.dropWhile p).length ≤ l.length := by
  induction l with
  | nil => simp
  | cons a t ih =>
    simp only [List.dropWhile_cons]
    split
    · exact Nat.le_trans ih (Nat.le_succ _)
    · exact Nat.le_refl _

theorem dropWhile_idem (p : Char → Bool) (l : List Char) :
    (l.dropWhile p).dropWhile p = l.dropWhile p := by
  induction l with
  | nil => simp
  | cons a t ih =>
    simp only [List.dropWhile_cons]
    split
    · exact ih
    · simp_all [List.dropWhile_cons]

theorem isPrefixOf_iff {p l : List Char} : p.isPrefixOf l = true ↔ ∃ t, l = p ++ t := by
  induction p generalizing l with
  | nil => simpa [List.isPrefixOf] using ⟨l, rfl⟩
  | cons a as ih =>
    cases l with
    | nil => simp [List.isPrefixOf]
    | cons b bs =>
      simp only [List.isPrefixOf, Bool.and_eq_true, beq_iff_eq, ih, List.cons_append,
        List.cons.injEq]
      constructor
      · rintro ⟨rfl, t, rfl⟩; exact ⟨t, rfl, rfl⟩
      · rintro ⟨t, rfl, rfl⟩; exact ⟨rfl, t, rfl⟩

theorem seqIn_cons_of {pat rest : List Char} (c : Char) (h : seqIn pat rest) :
    seqIn pat (c :: rest) := by
  obtain ⟨a, b, rfl⟩ := h
  exact ⟨c :: a, b, rfl⟩

theorem seqIn_ticks_of_seqIn_ticksJson {l : List Char}
    (h : seqIn ("```json".data) l) : seqIn ticks l := by
  obtain ⟨a, b, rfl⟩ := h
  exact ⟨a, "json".data ++ b, by simp [ticks]⟩

theorem leadTicks_cons (c : Char) (t : List Char) :
    leadTicks (c :: t) = if isTick c then leadTicks t + 1 else 0 := by
  simp only [leadTicks, List.takeWhile_cons]
  split <;> simp

theorem leadTicks_two {m : List Char} (h : 2 ≤ leadTicks m) :
    ∃ m', m = '`' :: '`' :: m' := by
  cases m with
  | nil => simp [leadTicks] at h
  | cons c t =>
    rw [leadTicks_cons] at h
    by_cases hc : isTick c = true
    · rw [if_pos hc] at h
      cases t with
      | nil => simp [leadTicks] at h
      | cons d t' =>
        rw [leadTicks_cons] at h
        by_cases hd : isTick d = true
        · have hc' : c = '`' := by simpa [isTick] using hc
          have hd' : d = '`' := by simpa [isTick] using hd
          exact ⟨t', by rw [hc', hd']⟩
        · rw [if_neg hd] at h; omega
    · rw [if_neg hc] at h; omega

theorem ticks_isPrefixOf_iff {l : List Char} :
    ticks.isPrefixOf l = true ↔ ∃ t, l = '`' :: '`' :: '`' :: t := by
  rw [isPrefixOf_iff]
  simp [ticks]

theorem removeTicks_nil : removeAll ticks [] = [] := by
  show removeAllAux '`' ['`', '`'] [] = []
  rw [removeAllAux]

theorem removeTicks_cons (c : Char) (rest : List Char) :
    removeAll ticks (c :: rest) =
      if ticks.isPrefixOf (c :: rest) then removeAll ticks (rest.drop 2)
      else c :: removeAll ticks rest := by
  show removeAllAux '`' ['`', '`'] (c :: rest) = _
  rw [removeAllAux]
  rfl

theorem leadTicks_removeTicks : ∀ n, ∀ l : List Char, l.length ≤ n →
    leadTicks (removeAll ticks l) = leadTicks l % 3 := by
  intro n
  induction n with
  | zero =>
    intro l hl
    have h0 : l = [] := List.eq_nil_of_length_eq_zero (Nat.le_zero.mp hl)
    subst h0
    rw [removeTicks_nil]
    simp [leadTicks]
  | succ n ih =>
    intro l hl
    by_cases hp : ticks.isPrefixOf l = true
    · obtain ⟨t, rfl⟩ := ticks_isPrefixOf_iff.mp hp
      rw [removeTicks_cons, if_pos hp]
      have ht : ('`' :: '`' :: t).drop 2 = t := rfl
      rw [ht]
      have hlen : t.length ≤ n := by
        simp only [List.length_cons] at hl
        omega
      rw [ih t hlen]
      rw [leadTicks_cons, leadTicks_cons, leadTicks_cons]
      simp only [show isTick '`' = true from rfl, if_pos]
      omega
    · cases l with
      | nil =>
        rw [removeTicks_nil]
        simp [leadTicks]
      | cons c rest =>
        rw [removeTicks_cons, if_neg hp]
        by_cases hc : isTick c = true
        · have hrest : leadTicks rest ≤ 1 := by
            by_contra hx
            push_neg at hx
            obtain ⟨m', rfl⟩ := leadTicks_two hx
            have hc' : c = '`' := by simpa [isTick] using hc
            exact hp (ticks_isPrefixOf_iff.mpr ⟨m', by rw [hc']⟩)
          rw [leadTicks_cons, if_pos hc, leadTicks_cons, if_pos hc]
          have hlen : rest.length ≤ n := by
            simp only [List.length_cons] at hl
            omega
          rw [ih rest hlen]
          omega
        · rw [leadTicks_cons, if_neg hc, leadTicks_cons, if_neg hc]

theorem removeTicks_noTriple : ∀ n, ∀ l : List Char, l.length ≤ n →
    ¬ seqIn ticks (removeAll ticks l) := by
  intro n
  induction n with
  | zero =>
    intro l hl
    have h0 : l = [] := List.eq_nil_of_length_eq_zero (Nat.le_zero.mp hl)
    subst h0
    rw [removeTicks_nil]
    rintro ⟨a, b, hab⟩
    have hlen := congrArg List.length hab
    simp [ticks] at hlen
    omega
  | succ n ih =>
    intro l hl
    by_cases hp : ticks.isPrefixOf l = true
    · obtain ⟨t, rfl⟩ := ticks_isPrefixOf_iff.mp hp
      rw [removeTicks_cons, if_pos hp]
      have hlen : (('`' :: '`' :: t).drop 2).length ≤ n := by
        simp only [List.drop_succ_cons, List.drop_zero, List.length_cons] at hl ⊢
        omega
      exact ih _ hlen
    · cases l with
      | nil =>
        rw [removeTicks_nil]
        rintro ⟨a, b, hab⟩
        have hlen := congrArg List.length hab
        simp [ticks] at hlen
        omega
      | cons c rest =>
        rw [removeTicks_cons, if_neg hp]
        have hlen : rest.length ≤ n := by
          simp only [List.length_cons] at hl
          omega
        rintro ⟨a, b, hab⟩
        cases a with
        | nil =>
          have h3 : c :: removeAll ticks rest = '`' :: '`' :: '`' :: b := hab
          obtain ⟨hc', hrem⟩ := List.cons_eq_cons.mp h3
          have h2 : 2 ≤ leadTicks (removeAll ticks rest) := by
            rw [hrem, leadTicks_cons, leadTicks_cons]
            simp only [show isTick '`' = true from rfl, if_pos]
            omega
          have hrest : leadTicks rest ≤ 1 := by
            by_contra hx
            push_neg at hx
            obtain ⟨m', rfl⟩ := leadTicks_two hx
            exact hp (ticks_isPrefixOf_iff.mpr ⟨m', by rw [hc']⟩)
          have := leadTicks_removeTicks n rest hlen
          omega
        | cons x a' =>
          simp only [List.cons_append, List.cons.injEq] at hab
          exact ih rest hlen ⟨a', b, hab.2⟩

theorem removeTicks_noTriple' (l : List Char) : ¬ seqIn ticks (removeAll ticks l) :=
  removeTicks_noTriple l.length l (Nat.le_refl _)

theorem removeAll_eq_self : ∀ (pat l : List Char), ¬ seqIn pat l → removeAll pat l = l := by
  intro pat
  match pat with
  | [] => intro l _; rfl
  | p :: ps =>
    intro l
    induction l with
    | nil =>
      intro _
      show removeAllAux p ps [] = []
      rw [removeAllAux]
    | cons c rest ih =>
      intro h
      have hnp : ¬ seqIn (p :: ps) rest := fun hx => h (seqIn_cons_of c hx)
      have hp : ¬ ((p :: ps).isPrefixOf (c :: rest) = true) := by
        intro hx
        obtain ⟨t, ht⟩ := isPrefixOf_iff.mp hx
        exact h ⟨[], t, by simpa using ht⟩
      show removeAllAux p ps (c :: rest) = c :: rest
      rw [removeAllAux, if_neg hp]
      exact congrArg (c :: ·) (ih hnp)

theorem stripFenceAux_eq_self : ∀ l : List Char, ¬ seqIn ticks l → stripFenceAux l = l := by
  intro l
  induction l with
  | nil =>
    intro _
    rw [stripFenceAux]
  | cons c rest ih =>
    intro h
    have hp : ¬ (ticks.isPrefixOf (c :: rest) = true) := by
      intro hx
      obtain ⟨t, ht⟩ := ticks_isPrefixOf_iff.mp hx
      refine h ⟨[], t, ?_⟩
      simpa [ticks] using ht
    rw [stripFenceAux, if_neg hp]
    exact congrArg (c :: ·) (ih fun hx => h (seqIn_cons_of c hx))

theorem trimRight_eq_append (l : List Char) : ∃ b, l = trimRightChars l ++ b := by
  refine ⟨(l.reverse.takeWhile goIsSpace).reverse, ?_⟩
  have h := congrArg List.reverse (@List.takeWhile_append_dropWhile Char goIsSpace l.reverse)
  rw [List.reverse_append, List.reverse_reverse] at h
  exact h.symm

theorem seqIn_of_trim {pat l : List Char} (h : seqIn pat (trimChars l)) : seqIn pat l := by
  obtain ⟨a, b, hab⟩ := h
  obtain ⟨b2, hb2⟩ := trimRight_eq_append (trimLeftChars l)
  rw [show trimRightChars (trimLeftChars l) = trimChars l from rfl, hab] at hb2
  have hL : l = l.takeWhile goIsSpace ++ trimLeftChars l :=
    (@List.takeWhile_append_dropWhile Char goIsSpace l).symm
  refine ⟨l.takeWhile goIsSpace ++ a, b ++ b2, ?_⟩
  conv_lhs => rw [hL, hb2]
  simp [List.append_assoc]

theorem trimChars_idem (l : List Char) : trimChars (trimChars l) = trimChars l := by
  have h1 : trimLeftChars (trimLeftChars l) = trimLeftChars l := dropWhile_idem _ _
  have h2 : trimLeftChars (trimRightChars (trimLeftChars l)) = trimRightChars (trimLeftChars l) := by
    cases hB : trimRightChars (trimLeftChars l) with
    | nil => simp [trimLeftChars]
    | cons c B' =>
      obtain ⟨b, hb⟩ := trimRight_eq_append (trimLeftChars l)
      rw [hB] at hb
      have hc : goIsSpace c = false := by
        by_contra hx
        have hx' : goIsSpace c = true := by simpa using hx
        have h1' := h1
        rw [hb] at h1'
        simp only [trimLeftChars, List.cons_append, List.dropWhile_cons, hx', if_pos] at h1'
        have hlen := dropWhile_length_le goIsSpace (B' ++ b)
        rw [h1'] at hlen
        simp at hlen
      simp [trimLeftChars, List.dropWhile_cons, hc]
  show trimRightChars (trimLeftChars (trimRightChars (trimLeftChars l))) =
    trimRightChars (trimLeftChars l)
  rw [h2]
  simp [trimRightChars, List.reverse_reverse, dropWhile_idem]

theorem cleanModelOutput_of_ne (y : String) (hy : ¬ y = "") :
    cleanModelOutput y = String.mk (trimChars (removeAll ticks (stripFenceAux y.data))) := by
  simp [cleanModelOutput, hy]

/-- C9: the sanitizer's wrapper-stripping step is idempotent: for every
string `x`, `cleanJSONResponse (cleanJSONResponse x) = cleanJSONResponse x`
(gemini.go) and `cleanModelOutput (cleanModelOutput x) = cleanModelOutput x`
(scope_of_work.go). -/
theorem c9_sanitizer_idempotent (x : String) :
    cleanJSONResponse (cleanJSONResponse x) = cleanJSONResponse x ∧
      cleanModelOutput (cleanModelOutput x) = cleanModelOutput x := by
  constructor
  · have hyd : (cleanJSONResponse x).data =
        trimChars (removeAll ticks (removeAll ("```json".data) x.data)) := rfl
    have h3 : ¬ seqIn ticks (cleanJSONResponse x).data := by
      rw [hyd]
      intro h
      exact removeTicks_noTriple' _ (seqIn_of_trim h)
    have h7 : ¬ seqIn ("```json".data) (cleanJSONResponse x).data :=
      fun hx => h3 (seqIn_ticks_of_seqIn_ticksJson hx)
    show String.mk
        (trimChars (removeAll ticks (removeAll ("```json".data) (cleanJSONResponse x).data))) =
      cleanJSONResponse x
    rw [removeAll_eq_self _ _ h7, removeAll_eq_self _ _ h3, hyd, trimChars_idem, ← hyd]
  · by_cases hx0 : x = ""
    · subst hx0
      simp [cleanModelOutput]
    · have hyd : (cleanModelOutput x).data =
          trimChars (removeAll ticks (stripFenceAux x.data)) := by
        rw [cleanModelOutput_of_ne x hx0]
      have h3 : ¬ seqIn ticks (cleanModelOutput x).data := by
        rw [hyd]
        intro h
        exact removeTicks_noTriple' _ (seqIn_of_trim h)
      by_cases hy0 : cleanModelOutput x = ""
      · rw [hy0]
        simp [cleanModelOutput]
      · rw [cleanModelOutput_of_ne _ hy0, stripFenceAux_eq_self _ h3,
          removeAll_eq_self _ _ h3, hyd, trimChars_idem, ← hyd]

/-! ## Lemmas: the chunking loop (claims C2 and C3) -/

theorem makeChunksLoop_spec (pageTexts : List String) (ppc ov : Nat)
    (h2 : ov < ppc) :
    ∀ fuel i, i < pageTexts.length → pageTexts.length - i ≤ fuel →
      ∃ cs, P0.makeChunksLoop pageTexts ppc ov fuel (i : Int) = some cs ∧ cs ≠ [] ∧
        (cs.head?.map P0.OptimizedChunk.startPage) = some (i + 1) ∧
        (cs.getLast?.map P0.OptimizedChunk.endPage) = some pageTexts.length ∧
        List.Chain' (fun a b => b.startPage ≤ a.endPage + 1) cs := by
  intro fuel
  induction fuel with
  | zero => intro i hi hf; omega
  | succ fuel ih =>
    intro i hi hf
    rw [P0.makeChunksLoop]
    rw [if_pos (by exact_mod_cast hi), if_neg (by omega)]
    simp only [Int.toNat_natCast]
    by_cases he : min pageTexts.length (i + ppc) = pageTexts.length
    · rw [if_pos he]
      refine ⟨[P0.chunkAt pageTexts ppc i], rfl, by simp, by simp [P0.chunkAt], ?_, by simp⟩
      simp [P0.chunkAt, he]
    · rw [if_neg he]
      have hmin : min pageTexts.length (i + ppc) = i + ppc := by omega
      have hcast : Int.ofNat (min pageTexts.length (i + ppc)) - Int.ofNat ov =
          ((i + ppc - ov : Nat) : Int) := by
        rw [hmin]
        simp only [Int.ofNat_eq_natCast]
        omega
      rw [hcast]
      obtain ⟨rest, hrest, hne, hhead, hlast, hchain⟩ :=
        ih (i + ppc - ov) (by omega) (by omega)
      rw [hrest]
      cases rest with
      | nil => exact absurd rfl hne
      | cons r0 rs =>
        refine ⟨P0.chunkAt pageTexts ppc i :: r0 :: rs, rfl, by simp,
          by simp [P0.chunkAt], ?_, ?_⟩
        · rw [List.getLast?_cons_cons]
          exact hlast
        · rw [List.chain'_cons]
          refine ⟨?_, hchain⟩
          have hr0 : r0.startPage = i + ppc - ov + 1 := by simpa using hhead
          simp only [P0.chunkAt, hmin, hr0]
          omega

/-- C2: for every non-empty page sequence, `pagesPerChunk ≥ 1` and
`0 ≤ overlapPages < pagesPerChunk`, `makeChunksFromPages` terminates (fuel
`n + 1` suffices) and its chunks' inclusive 1-based ranges cover `[1, n]`
with no gaps: the first chunk starts at page 1, the last ends at page `n`,
and every subsequent chunk starts no later than one page after the previous
chunk's end. -/
theorem c2_makeChunks_covers (pageTexts : List String) (pagesPerChunk overlapPages : Nat)
    (hne : pageTexts ≠ []) (h1 : 1 ≤ pagesPerChunk) (h2 : overlapPages < pagesPerChunk) :
    ∃ cs, P0.makeChunksFromPages pageTexts pagesPerChunk overlapPages
        (pageTexts.length + 1) = some cs ∧ cs ≠ [] ∧
      (cs.head?.map P0.OptimizedChunk.startPage) = some 1 ∧
      (cs.getLast?.map P0.OptimizedChunk.endPage) = some pageTexts.length ∧
      List.Chain' (fun a b => b.startPage ≤ a.endPage + 1) cs := by
  have hn : 0 < pageTexts.length := List.length_pos.mpr hne
  have h := makeChunksLoop_spec pageTexts pagesPerChunk overlapPages h2
    (pageTexts.length + 1) 0 hn (by omega)
  rw [P0.makeChunksFromPages, if_neg (by omega)]
  simpa using h

/-- Witness for C2 at a concrete input: three pages, two pages per chunk,
one page of overlap. -/
theorem c2_makeChunks_covers_witness :
    ∃ cs, P0.makeChunksFromPages ["pa", "pb", "pc"] 2 1 4 = some cs ∧ cs ≠ [] ∧
      (cs.head?.map P0.OptimizedChunk.startPage) = some 1 ∧
      (cs.getLast?.map P0.OptimizedChunk.endPage) = some 3 ∧
      List.Chain' (fun a b => b.startPage ≤ a.endPage + 1) cs :=
  c2_makeChunks_covers ["pa", "pb", "pc"] 2 1 (by decide) (by decide) (by decide)

/-- C3 (amended): `makeChunksFromPages` contains no rejection or clamping of
the overlap: the loop terminates for every `pagesPerChunk ≥ 1` and
`0 ≤ overlapPages < pagesPerChunk` (each iteration advances the index by
`pagesPerChunk - overlapPages ≥ 1`, so fuel `n + 1` suffices), but not for
`overlapPages ≥ pagesPerChunk` (see the counterexample
`c3_no_guard_counterexample`). -/
theorem c3_terminates_iff_overlap_lt (pages : List String) (pagesPerChunk overlapPages : Nat)
    (h1 : 1 ≤ pagesPerChunk) (h2 : overlapPages < pagesPerChunk) :
    (P0.makeChunksFromPages pages pagesPerChunk overlapPages (pages.length + 1)).isSome = true := by
  by_cases hn : pages.length = 0
  · rw [P0.makeChunksFromPages, if_pos hn]
    rfl
  · have hpos : 0 < pages.length := Nat.pos_of_ne_zero hn
    obtain ⟨cs, hcs, -⟩ :=
      makeChunksLoop_spec pages pagesPerChunk overlapPages h2 (pages.length + 1) 0 hpos (by omega)
    rw [P0.makeChunksFromPages, if_neg hn]
    rw [show ((0 : Nat) : Int) = (0 : Int) from rfl] at hcs
    rw [hcs]
    rfl

/-- Witness for the amended C3 at a concrete input. -/
theorem c3_terminates_iff_overlap_lt_witness :
    (P0.makeChunksFromPages ["pa", "pb"] 6 1 3).isSome = true :=
  c3_terminates_iff_overlap_lt ["pa", "pb"] 6 1 (by decide) (by decide)

/-- C3 counterexample: the claim asserts termination for every
`overlapPages ≥ 0` including `overlapPages ≥ pagesPerChunk`; but with two
pages, one page per chunk and one page of overlap the Go loop computes
`end = 1 < 2 = n` and `i = end - overlapPages = 0` forever: no fuel makes
the modelled loop exit, i.e. `for i < n` never terminates. -/
theorem c3_no_guard_counterexample : makeChunksDiverges ["p1", "p2"] 1 1 := by
  have key : ∀ f, P0.makeChunksLoop ["p1", "p2"] 1 1 f 0 = none := by
    intro f
    induction f with
    | zero => rw [P0.makeChunksLoop]
    | succ f ihf =>
      rw [P0.makeChunksLoop]
      rw [if_pos (by decide), if_neg (by decide), if_neg (by decide)]
      rw [show Int.ofNat (min (["p1", "p2"] : List String).length ((0 : Int).toNat + 1)) -
          Int.ofNat 1 = (0 : Int) from by decide]
      rw [ihf]
      rfl
  intro fuel
  rw [P0.makeChunksFromPages, if_neg (by decide)]
  exact key fuel

/-! ## Lemmas: the candidate filter (claim C8) -/

theorem candidateLoop_acc (chunks : List P0.OptimizedChunk) :
    ∀ acc, chunks.foldl
        (fun acc c => if P0.chunkLikelyHasSectionHeader c.text then acc ++ [c] else acc) acc =
      acc ++ chunks.filter (fun c => P0.chunkLikelyHasSectionHeader c.text) := by
  induction chunks with
  | nil => intro acc; simp
  | cons c cs ih =>
    intro acc
    simp only [List.foldl_cons, List.filter_cons]
    by_cases h : P0.chunkLikelyHasSectionHeader c.text
    · rw [if_pos h, if_pos h, ih]
      simp
    · rw [if_neg h, if_neg h, ih]

theorem candidateLoop_eq_filter (chunks : List P0.OptimizedChunk) :
    P0.candidateLoop chunks =
      chunks.filter (fun c => P0.chunkLikelyHasSectionHeader c.text) := by
  have h := candidateLoop_acc chunks []
  simpa [P0.candidateLoop] using h

/-- C8 (amended): for every non-empty chunk list, `filterCandidateChunks`
returns the order-preserving sublist of exactly the chunks the staged
heuristic flags, or the full unfiltered input when no chunk is flagged; it
never returns an empty list when chunks exist.  The third conjunct states
the staged heuristic, which differs from the claim's wording: the keyword
check fires exactly when the lower-cased text contains the literal text
`\b<kw>\b` (the doubled backslashes escape the backslash, no word boundary
is involved), and the "lines" of the all-caps test are the pieces of the
text split on the literal two-character sequence `\n`, not on newlines; the
per-piece all-caps test is as claimed. -/
theorem c8_filter_never_empty (chunks : List P0.OptimizedChunk) (hne : chunks ≠ []) :
    P0.filterCandidateChunks chunks =
        (if chunks.filter (fun c => P0.chunkLikelyHasSectionHeader c.text) = []
         then chunks
         else chunks.filter (fun c => P0.chunkLikelyHasSectionHeader c.text)) ∧
      P0.filterCandidateChunks chunks ≠ [] ∧
      (∀ t : String, P0.chunkLikelyHasSectionHeader t = true ↔
        ((∃ kw ∈ P0.sectionHeaderKeywords,
            P0.containsSeq (P0.kwLiteral kw) (t.data.map Char.toLower) = true) ∨
          (∃ line ∈ P0.splitLitNl t.data,
            4 ≤ (trimChars line).length ∧ (trimChars line).length ≤ 120 ∧
            trimChars line = (trimChars line).map Char.toUpper ∧
            (fieldsChars (trimChars line)).length < 12))) := by
  have heq : P0.filterCandidateChunks chunks =
      (if chunks.filter (fun c => P0.chunkLikelyHasSectionHeader c.text) = []
       then chunks
       else chunks.filter (fun c => P0.chunkLikelyHasSectionHeader c.text)) := by
    simp only [P0.filterCandidateChunks, candidateLoop_eq_filter]
  refine ⟨heq, ?_, ?_⟩
  · rw [heq]
    by_cases hc : chunks.filter (fun c => P0.chunkLikelyHasSectionHeader c.text) = []
    · rw [if_pos hc]
      exact hne
    · rw [if_neg hc]
      exact hc
  · intro t
    simp only [P0.chunkLikelyHasSectionHeader, Bool.or_eq_true, List.any_eq_true,
      Bool.and_eq_true, decide_eq_true_eq]
    constructor
    · rintro (⟨kw, hkw, hc⟩ | ⟨line, hline, ⟨⟨h4, h120⟩, hup⟩, hf⟩)
      · exact Or.inl ⟨kw, hkw, hc⟩
      · exact Or.inr ⟨line, hline, h4, h120, hup, hf⟩
    · rintro (⟨kw, hkw, hc⟩ | ⟨line, hline, h4, h120, hup, hf⟩)
      · exact Or.inl ⟨kw, hkw, hc⟩
      · exact Or.inr ⟨line, hline, ⟨⟨h4, h120⟩, hup⟩, hf⟩

/-- Witness for C8: a single chunk no heuristic flags, exercising the
fall-back-to-all-chunks branch. -/
theorem c8_filter_never_empty_witness :
    P0.filterCandidateChunks [⟨1, 1, "no match here", "1-1"⟩] =
        (if ([⟨1, 1, "no match here", "1-1"⟩] :
              List P0.OptimizedChunk).filter (fun c => P0.chunkLikelyHasSectionHeader c.text) = []
         then [⟨1, 1, "no match here", "1-1"⟩]
         else ([⟨1, 1, "no match here", "1-1"⟩] :
              List P0.OptimizedChunk).filter (fun c => P0.chunkLikelyHasSectionHeader c.text)) ∧
      P0.filterCandidateChunks [⟨1, 1, "no match here", "1-1"⟩] ≠ [] ∧
      (∀ t : String, P0.chunkLikelyHasSectionHeader t = true ↔
        ((∃ kw ∈ P0.sectionHeaderKeywords,
            P0.containsSeq (P0.kwLiteral kw) (t.data.map Char.toLower) = true) ∨
          (∃ line ∈ P0.splitLitNl t.data,
            4 ≤ (trimChars line).length ∧ (trimChars line).length ≤ 120 ∧
            trimChars line = (trimChars line).map Char.toUpper ∧
            (fieldsChars (trimChars line)).length < 12))) :=
  c8_filter_never_empty [⟨1, 1, "no match here", "1-1"⟩] (by decide)

/-- C8 counterexample: on the chunk text `"scope of work"` the claim's
heuristic (`specChunkLikelyHasSectionHeader`: word-boundary keyword over
real lines) fires while the staged code's does not -- the text contains no
literal `\b` marker and, caps-wise, is its own single piece and not
upper-case -- so on the two-chunk list below the code falls back to the
full input where the claim requires the one-element keyword sublist. -/
theorem c8_heuristic_counterexample :
    P0.chunkLikelyHasSectionHeader "scope of work" = false ∧
      P0.specChunkLikelyHasSectionHeader "scope of work" = true ∧
      P0.filterCandidateChunks
          [⟨1, 1, "scope of work", "1-1"⟩, ⟨2, 2, "zz", "2-2"⟩] =
        [⟨1, 1, "scope of work", "1-1"⟩, ⟨2, 2, "zz", "2-2"⟩] ∧
      ([⟨1, 1, "scope of work", "1-1"⟩, ⟨2, 2, "zz", "2-2"⟩] :
          List P0.OptimizedChunk).filter
          (fun c => P0.specChunkLikelyHasSectionHeader c.text) =
        [⟨1, 1, "scope of work", "1-1"⟩] := by
  refine ⟨by decide, by decide, rfl, rfl⟩

/-- C4: in part_000's chunk loop, (1) a chunk whose retries yield a parsed
non-empty result resets the consecutive-failure counter to zero; (2) once a
chunk's failure raises the counter to `maxConsecutiveNoNew`, the loop's
result no longer depends on the remaining working list -- no later chunk is
attempted; (3) in particular, over ten chunks where chunks 1-3 succeed and
chunks 4-9 fail all attempts (`maxConsecutiveNoNew = 6`, `maxRetries = 2`),
the backend is called exactly for chunks 1-9 and chunk 10 is never
attempted: the counter reaches 6 at chunk 9 and processing stops. -/
theorem c4_early_stop_and_reset :
    (∀ (attempt : Nat → Nat → Option (GoSlice P0.SectionAnalysis)) (mr mc : Nat)
        (ic : Nat × P0.OptimizedChunk) (st : P0.LoopState),
        st.processedKeys.contains ic.2.pageRange = false →
        (P0.retryResult (attempt ic.1) mr).isSome = true →
        ((P0.chunkStep attempt mr mc ic st).1).consecutiveNoNew = 0) ∧
    (∀ (attempt : Nat → Nat → Option (GoSlice P0.SectionAnalysis)) (mr mc : Nat)
        (ic : Nat × P0.OptimizedChunk) (st : P0.LoopState)
        (rest rest' : List (Nat × P0.OptimizedChunk)),
        st.processedKeys.contains ic.2.pageRange = false →
        P0.retryResult (attempt ic.1) mr = none →
        mc ≤ st.consecutiveNoNew + 1 →
        P0.chunkLoop attempt mr mc (ic :: rest) st =
          P0.chunkLoop attempt mr mc (ic :: rest') st) ∧
    ((P0.chunkLoop c4Attempt 2 6 tenChunksIndexed P0.initState).attempted =
        [0, 1, 2, 3, 4, 5, 6, 7, 8] ∧
      (P0.chunkLoop c4Attempt 2 6 tenChunksIndexed P0.initState).consecutiveNoNew = 6 ∧
      (P0.chunkLoop c4Attempt 2 6 tenChunksIndexed P0.initState).results.length = 3) := by
  refine ⟨?_, ?_, by decide⟩
  · intro attempt mr mc ic st hskip hsucc
    obtain ⟨v, hv⟩ := Option.isSome_iff_exists.mp hsucc
    have hskip' : ¬ ic.2.pageRange ∈ st.processedKeys := by simpa using hskip
    simp [P0.chunkStep, hskip', hv]
  · intro attempt mr mc ic st rest rest' hskip hfail hmc
    have hskip' : ¬ ic.2.pageRange ∈ st.processedKeys := by simpa using hskip
    rw [P0.chunkLoop, P0.chunkLoop]
    have hstep : (P0.chunkStep attempt mr mc ic st).2 = true := by
      simp [P0.chunkStep, hskip', hfail]
      omega
    rw [if_pos hstep, if_pos hstep]

/-! ## Lemmas: orchestrator error behaviour and modes (claims C1, C5, C7) -/

theorem checkSingle_some {o : Option (GoSlice P0.SectionAnalysis)}
    {gs : GoSlice P0.SectionAnalysis} (h : P0.checkSingle o = some gs) : 0 < gs.len := by
  cases o with
  | none => simp [P0.checkSingle] at h
  | some gs' =>
    simp only [P0.checkSingle] at h
    by_cases hl : 0 < gs'.len
    · rw [if_pos hl] at h
      cases h
      exact hl
    · rw [if_neg hl] at h
      cases h

/-- C5 (amended): part_000's and sectionwise.go's `ExtractSectionwiseAnalysis`
return a non-nil error exactly when the Gemini client is not configured,
detected at entry; `ExtractSOW`'s only non-nil error is the zero-pages entry
check (it performs no backend-configuration check at all); in every other
case each orchestrator returns a result with a nil error, whatever the
backend outcomes. -/
theorem c5_error_only_at_entry :
    (∀ (g : P0.GeminiService) (o : P0.Oracle) (doc : String),
        (P0.ExtractSectionwiseAnalysis g o doc).isOk = P0.configured g) ∧
    (∀ (g : P0.GeminiService) (o : SW.Oracle) (doc : String),
        (SW.ExtractSectionwiseAnalysis g o doc).isOk = P0.configured g) ∧
    (∀ (o : SOW.Oracle) (pages : List String),
        (SOW.ExtractSOW o pages).isOk = true ↔ pages ≠ []) := by
  refine ⟨?_, ?_, ?_⟩
  · intro g o doc
    cases hc : P0.configured g with
    | false => simp [P0.ExtractSectionwiseAnalysis, hc, Except.isOk, Except.toBool]
    | true =>
      rw [P0.ExtractSectionwiseAnalysis, if_neg (by simp [hc])]
      split
      · rfl
      · split
        · rfl
        · dsimp only
          split
          · rfl
          · split <;> rfl
  · intro g o doc
    cases hc : P0.configured g with
    | false => simp [SW.ExtractSectionwiseAnalysis, hc, Except.isOk, Except.toBool]
    | true =>
      rw [SW.ExtractSectionwiseAnalysis, if_neg (by simp [hc])]
      split
      · split <;> rfl
      · rfl
  · intro o pages
    by_cases hp : pages.length = 0
    · rw [SOW.ExtractSOW, if_pos hp]
      simp [Except.isOk, Except.toBool, List.eq_nil_of_length_eq_zero hp]
    · rw [SOW.ExtractSOW, if_neg hp]
      have hne : pages ≠ [] := by
        intro h
        exact hp (by rw [h]; rfl)
      constructor
      · intro _
        exact hne
      · intro _
        split
        · rfl
        · split <;> rfl

/-- C5 counterexample: `ExtractSOW` applied to zero pages returns the
non-nil error `"no pages provided"` even though every backend call in the
oracle succeeds -- so the backend is configured and reachable, yet the run
errors; and the error is not a backend-configuration failure.  This refutes
"returns a non-nil error only when the completion backend is not
configured". -/
theorem c5_counterexample :
    SOW.ExtractSOW ⟨some SOW.emptySOW, fun _ => some SOW.emptySOW, some SOW.emptySOW⟩ [] =
        Except.error "no pages provided" ∧
      ("no pages provided" : String) ≠ "gemini client not initialized" := by
  constructor
  · rfl
  · decide

theorem chunkedStage_mode (o : SW.Oracle) (doc : String) :
    (SW.chunkedStage o doc).mode ∈
      (["chunk_failed", "chunk_model_aggregate", "chunk_programmatic_aggregate"] :
        List String) := by
  rw [SW.chunkedStage]
  split
  · simp
  · split <;> simp

/-- C7 (amended): each pipeline's `mode` is drawn from that pipeline's own
fixed vocabulary: part_000's `ExtractSectionwiseAnalysis` uses
`single_primary`/`single_secondary`/`chunk_optimized`/`chunk_failed` (with
`chunk_optimized` covering *both* aggregation branches); sectionwise.go's
uses `single_call`/`chunk_failed`/`chunk_model_aggregate`/
`chunk_programmatic_aggregate` (here the programmatic fallback is
distinguishable); `ExtractSOW` uses `single_call`/`chunk_aggregate_model`/
`chunk_aggregate_programmatic`. -/
theorem c7_mode_vocabulary :
    (∀ (g : P0.GeminiService) (o : P0.Oracle) (doc : String) (r : P0.SectionwiseResult),
        P0.ExtractSectionwiseAnalysis g o doc = Except.ok r →
        r.mode ∈ (["single_primary", "single_secondary", "chunk_optimized",
          "chunk_failed"] : List String)) ∧
    (∀ (g : P0.GeminiService) (o : SW.Oracle) (doc : String) (r : SW.SectionwiseResult),
        SW.ExtractSectionwiseAnalysis g o doc = Except.ok r →
        r.mode ∈ (["single_call", "chunk_failed", "chunk_model_aggregate",
          "chunk_programmatic_aggregate"] : List String)) ∧
    (∀ (o : SOW.Oracle) (pages : List String) (r : SOW.SOWExtractionResult),
        SOW.ExtractSOW o pages = Except.ok r →
        r.mode ∈ (["single_call", "chunk_aggregate_model",
          "chunk_aggregate_programmatic"] : List String)) := by
  refine ⟨?_, ?_, ?_⟩
  · intro g o doc r h
    rw [P0.ExtractSectionwiseAnalysis] at h
    by_cases hc : P0.configured g = false
    · rw [if_pos hc] at h
      cases h
    · rw [if_neg hc] at h
      split at h
      · cases h
        simp
      · split at h
        · cases h
          simp
        · dsimp only at h
          split at h
          · cases h
            simp
          · split at h <;> (cases h; simp)
  · intro g o doc r h
    rw [SW.ExtractSectionwiseAnalysis] at h
    by_cases hc : P0.configured g = false
    · rw [if_pos hc] at h
      cases h
    · rw [if_neg hc] at h
      have hstage := chunkedStage_mode o doc
      simp only [List.mem_cons, List.mem_singleton, List.not_mem_nil, or_false] at hstage ⊢
      split at h
      · split at h
        · cases h
          left
          rfl
        · cases h
          tauto
      · cases h
        tauto
  · intro o pages r h
    rw [SOW.ExtractSOW] at h
    by_cases hp : pages.length = 0
    · rw [if_pos hp] at h
      cases h
    · rw [if_neg hp] at h
      split at h
      · cases h
        simp
      · dsimp only at h
        split at h <;> (cases h; simp)

/-- Witness for C7 applied at a concrete run: a successful single call of
`ExtractSOW` carries mode `"single_call"`. -/
theorem c7_mode_vocabulary_witness :
    ("single_call" : String) ∈ (["single_call", "chunk_aggregate_model",
      "chunk_aggregate_programmatic"] : List String) :=
  c7_mode_vocabulary.2.2 ⟨some SOW.emptySOW, fun _ => none, none⟩ ["p"]
    ⟨"single_call", SOW.emptySOW, []⟩ rfl

/-- C7 counterexample: a successful `ExtractSOW` single call carries mode
`"single_call"`, which is byte-for-byte in none of the claim's allowed set
`single_primary`/`single_secondary`/`chunk_optimized`/`chunk_model_aggregate`/
`chunk_programmatic_aggregate`/`chunk_failed`; and part_000's programmatic
aggregation fallback (aggregation call failing, one chunk succeeding over
document `"X"`) carries mode `"chunk_optimized"` -- the very mode of the
model-aggregation branch, not a distinct programmatic-aggregate mode. -/
theorem c7_mode_counterexample :
    SOW.ExtractSOW ⟨some SOW.emptySOW, fun _ => none, none⟩ ["p"] =
        Except.ok ⟨"single_call", SOW.emptySOW, []⟩ ∧
      ¬ ("single_call" : String) ∈ (["single_primary", "single_secondary", "chunk_optimized",
        "chunk_model_aggregate", "chunk_programmatic_aggregate", "chunk_failed"] :
          List String) ∧
      P0.ExtractSectionwiseAnalysis ⟨some (), some (), some ()⟩
          ⟨none, none, fun _ _ => some (GoSlice.mk [⟨"S", "x", []⟩]), none⟩ "X" =
        Except.ok ⟨"chunk_optimized", GoSlice.mk [⟨"S", "x", []⟩], 0⟩ := by
  refine ⟨rfl, by decide, rfl⟩

/-- C1 (amended): in part_000's and sectionwise.go's orchestrators an
error-free result always carries a well-typed `final`, and whenever zero
chunk partial results were collected the result is
`mode = "chunk_failed"` with `final` the non-nil empty section list; `final`
can be the JSON value `null` in exactly one situation: the model-aggregation
call's output parsed as JSON `null` (that branch checks only that
unmarshalling succeeded, not that the slice is non-nil). -/
theorem c1_final_wellformed :
    (∀ (g : P0.GeminiService) (o : P0.Oracle) (doc : String) (r : P0.SectionwiseResult),
        P0.ExtractSectionwiseAnalysis g o doc = Except.ok r →
        (r.final.isNull = true → o.aggregate = some GoSlice.goNil) ∧
        (r.mode = "chunk_failed" → r.final = GoSlice.mk [])) ∧
    (∀ (g : P0.GeminiService) (o : P0.Oracle) (doc : String),
        P0.configured g = true →
        P0.checkSingle o.primary = none →
        P0.checkSingle o.secondary = none →
        (P0.chunkLoop o.chunkAttempt 2 6 (P0.candidateList doc).enum P0.initState).results = [] →
        P0.ExtractSectionwiseAnalysis g o doc = Except.ok
          ⟨"chunk_failed", GoSlice.mk [],
            (P0.chunkLoop o.chunkAttempt 2 6
              (P0.candidateList doc).enum P0.initState).processedCount⟩) ∧
    (∀ (g : P0.GeminiService) (o : SW.Oracle) (doc : String),
        P0.configured g = true →
        SW.singleOutcome o.pro o.flash = none →
        SW.chunkResults o doc = [] →
        SW.ExtractSectionwiseAnalysis g o doc =
          Except.ok ⟨"chunk_failed", GoSlice.mk []⟩) := by
  refine ⟨?_, ?_, ?_⟩
  · intro g o doc r h
    rw [P0.ExtractSectionwiseAnalysis] at h
    by_cases hc : P0.configured g = false
    · rw [if_pos hc] at h
      cases h
    · rw [if_neg hc] at h
      split at h
      · rename_i gs heq
        cases h
        refine ⟨?_, fun hmode => by simp at hmode⟩
        intro hnull
        exfalso
        cases gs with
        | goNil =>
          have := checkSingle_some heq
          simp [GoSlice.len, GoSlice.toList] at this
        | mk l => simp [GoSlice.isNull] at hnull
      · split at h
        · rename_i gs heq
          cases h
          refine ⟨?_, fun hmode => by simp at hmode⟩
          intro hnull
          exfalso
          cases gs with
          | goNil =>
            have := checkSingle_some heq
            simp [GoSlice.len, GoSlice.toList] at this
          | mk l => simp [GoSlice.isNull] at hnull
        · dsimp only at h
          split at h
          · cases h
            refine ⟨?_, fun _ => rfl⟩
            intro hnull
            simp [GoSlice.isNull] at hnull
          · rename_i hres
            split at h
            · rename_i gs heq
              cases h
              rw [P0.aggregateChunksWithModel, if_neg hres] at heq
              refine ⟨?_, fun hmode => by simp at hmode⟩
              intro hnull
              cases gs with
              | goNil => exact heq
              | mk l => simp [GoSlice.isNull] at hnull
            · cases h
              refine ⟨?_, fun hmode => by simp at hmode⟩
              intro hnull
              simp [GoSlice.isNull] at hnull
  · intro g o doc hg h1 h2 hres
    rw [P0.ExtractSectionwiseAnalysis, if_neg (by simp [hg]), h1, h2]
    dsimp only
    rw [if_pos hres]
  · intro g o doc hg hsingle hres
    rw [SW.ExtractSectionwiseAnalysis, if_neg (by simp [hg]), hsingle]
    rw [SW.chunkedStage]
    dsimp only
    rw [if_pos hres]

/-- Witness for C1's degenerate case: a configured service, both single
calls failing and every chunk attempt failing over the one-page document
`"X"` yields `mode = "chunk_failed"` with the non-nil empty section list. -/
theorem c1_final_wellformed_witness :
    P0.ExtractSectionwiseAnalysis ⟨some (), some (), some ()⟩
        ⟨none, none, fun _ _ => none, none⟩ "X" =
      Except.ok ⟨"chunk_failed", GoSlice.mk [],
        (P0.chunkLoop (fun _ _ => none) 2 6
          (P0.candidateList "X").enum P0.initState).processedCount⟩ :=
  c1_final_wellformed.2.1 ⟨some (), some (), some ()⟩ ⟨none, none, fun _ _ => none, none⟩
    "X" rfl rfl rfl rfl

/-- C1 counterexample: one chunk parses successfully, then the
model-aggregation call's output parses as JSON `null`; the orchestrator
returns without error but `final` is the nil slice, i.e. serialises as the
JSON value `null` -- refuting "`final` ... never null ... for every pattern
of backend-call outcomes". -/
theorem c1_null_final_counterexample :
    P0.ExtractSectionwiseAnalysis ⟨some (), some (), some ()⟩
        ⟨none, none, fun _ _ => some (GoSlice.mk [⟨"S", "x", []⟩]), some GoSlice.goNil⟩ "X" =
        Except.ok ⟨"chunk_optimized", GoSlice.goNil, 0⟩ ∧
      (GoSlice.goNil : GoSlice P0.SectionAnalysis).isNull = true :=
  ⟨rfl, rfl⟩

/-! ## Lemmas: programmatic aggregation (claim C6) -/

theorem aggInsert_keys_nodup (m : List (String × P0.SectionAnalysis)) (s : P0.SectionAnalysis)
    (h : (m.map Prod.fst).Nodup) : ((P0.aggInsert m s).map Prod.fst).Nodup := by
  rw [P0.aggInsert]
  by_cases hk : P0.sectionKey s = ""
  · rw [if_pos hk]
    exact h
  · rw [if_neg hk]
    by_cases hmem : (m.map Prod.fst).contains (P0.sectionKey s) = true
    · rw [if_pos hmem]
      have hkeys : (m.map fun kv =>
          if kv.1 = P0.sectionKey s then (kv.1, P0.mergeSection kv.2 s) else kv).map Prod.fst =
          m.map Prod.fst := by
        rw [List.map_map]
        apply List.map_congr_left
        intro kv _
        by_cases h1 : kv.1 = P0.sectionKey s <;> simp [h1]
      rw [hkeys]
      exact h
    · rw [if_neg hmem]
      have hnot : ¬ P0.sectionKey s ∈ m.map Prod.fst := by simpa using hmem
      rw [List.map_append]
      simp [List.nodup_append, h, hnot]

theorem aggMerged_keys_nodup (css : List (List P0.SectionAnalysis)) :
    ((P0.aggMerged css).map Prod.fst).Nodup := by
  have aux : ∀ (sections : List P0.SectionAnalysis) (m : List (String × P0.SectionAnalysis)),
      (m.map Prod.fst).Nodup → ((sections.foldl P0.aggInsert m).map Prod.fst).Nodup := by
    intro sections
    induction sections with
    | nil => intro m hm; exact hm
    | cons s ss ih =>
      intro m hm
      exact ih _ (aggInsert_keys_nodup m s hm)
  have aux2 : ∀ (css : List (List P0.SectionAnalysis)) (m : List (String × P0.SectionAnalysis)),
      (m.map Prod.fst).Nodup →
      (((css.foldl (fun m chunk => chunk.foldl P0.aggInsert m) m)).map Prod.fst).Nodup := by
    intro css
    induction css with
    | nil => intro m hm; exact hm
    | cons chunk rest ih =>
      intro m hm
      exact ih _ (aux chunk m hm)
  exact aux2 css [] (by simp)

theorem specLongestFirst_three (u1 u2 u3 : String) :
    (specLongestFirst [u1, u2, u3]).getD "" =
      if u1.data.length < u2.data.length then
        (if u2.data.length < u3.data.length then u3 else u2)
      else (if u1.data.length < u3.data.length then u3 else u1) := by
  by_cases h21 : u1.data.length < u2.data.length
  · by_cases h32 : u2.data.length < u3.data.length
    · rw [if_pos h21, if_pos h32, specLongestFirst]
      rw [List.find?_cons_of_neg _ (by simp only [List.all_cons, List.all_nil, Bool.and_true, Bool.and_eq_true, decide_eq_true_eq]; omega), List.find?_cons_of_neg _ (by simp only [List.all_cons, List.all_nil, Bool.and_true, Bool.and_eq_true, decide_eq_true_eq]; omega),
        List.find?_cons_of_pos _ (by simp only [List.all_cons, List.all_nil, Bool.and_true, Bool.and_eq_true, decide_eq_true_eq]; omega)]
      rfl
    · rw [if_pos h21, if_neg h32, specLongestFirst]
      rw [List.find?_cons_of_neg _ (by simp only [List.all_cons, List.all_nil, Bool.and_true, Bool.and_eq_true, decide_eq_true_eq]; omega), List.find?_cons_of_pos _ (by simp only [List.all_cons, List.all_nil, Bool.and_true, Bool.and_eq_true, decide_eq_true_eq]; omega)]
      rfl
  · by_cases h31 : u1.data.length < u3.data.length
    · rw [if_neg h21, if_pos h31, specLongestFirst]
      rw [List.find?_cons_of_neg _ (by simp only [List.all_cons, List.all_nil, Bool.and_true, Bool.and_eq_true, decide_eq_true_eq]; omega), List.find?_cons_of_neg _ (by simp only [List.all_cons, List.all_nil, Bool.and_true, Bool.and_eq_true, decide_eq_true_eq]; omega),
        List.find?_cons_of_pos _ (by simp only [List.all_cons, List.all_nil, Bool.and_true, Bool.and_eq_true, decide_eq_true_eq]; omega)]
      rfl
    · rw [if_neg h21, if_neg h31, specLongestFirst]
      rw [List.find?_cons_of_pos _ (by simp only [List.all_cons, List.all_nil, Bool.and_true, Bool.and_eq_true, decide_eq_true_eq]; omega)]
      rfl

/-- C6 (amended): `programmaticAggregate` groups sections by their
normalized key (name, else first-50-characters-of-summary fallback,
dropping empty keys) producing exactly one output entry per distinct key
(conjunct 1: the accumulator's keys are duplicate-free); within a group the
summary is the longest with first-seen winning ties, and a later section's
considerations are appended only when their normalized text is new
(conjunct 2: the three-case-variant scenario with singleton consideration
lists and distinct normalized texts merges into one entry whose
considerations are the union in first-seen order). -/
theorem c6_aggregate_merge :
    (∀ css : List (List P0.SectionAnalysis), ((P0.aggMerged css).map Prod.fst).Nodup) ∧
    (∀ (n1 n2 n3 u1 u2 u3 t1 t2 t3 : String) (b1 b2 b3 : Bool) (p1 p2 p3 : List Int),
        ¬ P0.normalize n1 = "" →
        P0.normalize n2 = P0.normalize n1 →
        P0.normalize n3 = P0.normalize n1 →
        ¬ P0.normalize t2 = P0.normalize t1 →
        ¬ P0.normalize t3 = P0.normalize t1 →
        ¬ P0.normalize t3 = P0.normalize t2 →
        P0.programmaticAggregate [[⟨n1, u1, [⟨t1, b1, p1⟩]⟩], [⟨n2, u2, [⟨t2, b2, p2⟩]⟩],
            [⟨n3, u3, [⟨t3, b3, p3⟩]⟩]] =
          [⟨n1, (specLongestFirst [u1, u2, u3]).getD "",
            [⟨t1, b1, p1⟩, ⟨t2, b2, p2⟩, ⟨t3, b3, p3⟩]⟩]) := by
  refine ⟨aggMerged_keys_nodup, ?_⟩
  intro n1 n2 n3 u1 u2 u3 t1 t2 t3 b1 b2 b3 p1 p2 p3 hk1 hk2 hk3 ht21 ht31 ht32
  have hs1 : P0.sectionKey ⟨n1, u1, [⟨t1, b1, p1⟩]⟩ = P0.normalize n1 := by
    simp [P0.sectionKey, hk1]
  have hs2 : P0.sectionKey ⟨n2, u2, [⟨t2, b2, p2⟩]⟩ = P0.normalize n1 := by
    simp [P0.sectionKey, hk2, hk1]
  have hs3 : P0.sectionKey ⟨n3, u3, [⟨t3, b3, p3⟩]⟩ = P0.normalize n1 := by
    simp [P0.sectionKey, hk3, hk1]
  have hd2 : P0.dedupAppend [⟨t1, b1, p1⟩] [⟨t2, b2, p2⟩] =
      [⟨t1, b1, p1⟩, ⟨t2, b2, p2⟩] := by
    simp [P0.dedupAppend, ht21]
  have hd3 : P0.dedupAppend [⟨t1, b1, p1⟩, ⟨t2, b2, p2⟩] [⟨t3, b3, p3⟩] =
      [⟨t1, b1, p1⟩, ⟨t2, b2, p2⟩, ⟨t3, b3, p3⟩] := by
    simp [P0.dedupAppend, ht31, ht32]
  have hg2 : P0.mergeSection ⟨n1, u1, [⟨t1, b1, p1⟩]⟩ ⟨n2, u2, [⟨t2, b2, p2⟩]⟩ =
      ⟨n1, if u1.length < u2.length then u2 else u1,
        [⟨t1, b1, p1⟩, ⟨t2, b2, p2⟩]⟩ := by
    simp [P0.mergeSection, hd2]
  have hg3 : P0.mergeSection
      ⟨n1, if u1.length < u2.length then u2 else u1, [⟨t1, b1, p1⟩, ⟨t2, b2, p2⟩]⟩
      ⟨n3, u3, [⟨t3, b3, p3⟩]⟩ =
      ⟨n1, if (if u1.length < u2.length then u2 else u1).length < u3.length
          then u3 else (if u1.length < u2.length then u2 else u1),
        [⟨t1, b1, p1⟩, ⟨t2, b2, p2⟩, ⟨t3, b3, p3⟩]⟩ := by
    simp [P0.mergeSection, hd3]
  have hm1 : P0.aggInsert [] ⟨n1, u1, [⟨t1, b1, p1⟩]⟩ =
      [(P0.normalize n1, ⟨n1, u1, [⟨t1, b1, p1⟩]⟩)] := by
    simp [P0.aggInsert, hs1, hk1]
  have hm2 : P0.aggInsert [(P0.normalize n1, ⟨n1, u1, [⟨t1, b1, p1⟩]⟩)]
      ⟨n2, u2, [⟨t2, b2, p2⟩]⟩ =
      [(P0.normalize n1,
        ⟨n1, if u1.length < u2.length then u2 else u1,
          [⟨t1, b1, p1⟩, ⟨t2, b2, p2⟩]⟩)] := by
    simp [P0.aggInsert, hs2, hk1, hg2]
  have hm3 : P0.aggInsert
      [(P0.normalize n1,
        ⟨n1, if u1.length < u2.length then u2 else u1,
          [⟨t1, b1, p1⟩, ⟨t2, b2, p2⟩]⟩)]
      ⟨n3, u3, [⟨t3, b3, p3⟩]⟩ =
      [(P0.normalize n1,
        ⟨n1, if (if u1.length < u2.length then u2 else u1).length < u3.length
            then u3 else (if u1.length < u2.length then u2 else u1),
          [⟨t1, b1, p1⟩, ⟨t2, b2, p2⟩, ⟨t3, b3, p3⟩]⟩)] := by
    simp [P0.aggInsert, hs3, hk1, hg3]
  have hsum : (if (if u1.length < u2.length then u2 else u1).length < u3.length
      then u3 else (if u1.length < u2.length then u2 else u1)) =
      (if u1.length < u2.length then (if u2.length < u3.length then u3 else u2)
       else (if u1.length < u3.length then u3 else u1)) := by
    by_cases h21 : u1.length < u2.length <;> simp [h21]
  rw [P0.programmaticAggregate, P0.aggMerged]
  simp only [List.foldl_cons, List.foldl_nil]
  rw [hm1, hm2, hm3]
  simp only [List.map_cons, List.map_nil]
  rw [hsum, specLongestFirst_three]
  rfl

/-- Witness for C6's scenario: the three case variants of `"Eligibility"`
with summaries of different lengths and distinct consideration texts. -/
theorem c6_aggregate_merge_witness :
    P0.programmaticAggregate
        [[⟨"Eligibility", "short", [⟨"alpha", true, [1]⟩]⟩],
         [⟨"ELIGIBILITY", "a longer summary", [⟨"beta", false, [2]⟩]⟩],
         [⟨"eligibility", "mid size", [⟨"gamma", true, [3]⟩]⟩]] =
      [⟨"Eligibility", (specLongestFirst ["short", "a longer summary", "mid size"]).getD "",
        [⟨"alpha", true, [1]⟩, ⟨"beta", false, [2]⟩, ⟨"gamma", true, [3]⟩]⟩] :=
  c6_aggregate_merge.2 "Eligibility" "ELIGIBILITY" "eligibility"
    "short" "a longer summary" "mid size" "alpha" "beta" "gamma"
    true false true [1] [2] [3]
    (by decide) (by decide) (by decide) (by decide) (by decide) (by decide)

/-- C6 counterexample: a group whose *first* section already contains a
duplicated consideration keeps the duplicate -- `programmaticAggregate`
copies the first-seen section's considerations verbatim and deduplicates
only later sections against them, so "duplicates removed" fails as a
universal statement. -/
theorem c6_first_section_dup_counterexample :
    P0.programmaticAggregate [[⟨"A", "s", [⟨"x", true, []⟩, ⟨"x", true, []⟩]⟩]] =
        [⟨"A", "s", [⟨"x", true, []⟩, ⟨"x", true, []⟩]⟩] ∧
      ¬ ((P0.programmaticAggregate [[⟨"A", "s", [⟨"x", true, []⟩, ⟨"x", true, []⟩]⟩]]).flatMap
          (fun s => s.keyConsiderations.map fun k => P0.normalize k.consideration)).Nodup := by
  constructor
  · rfl
  · decide

/-! ## C10: the vector store's MD5-keyed document identity (part_004) -/

theorem vs_mapInsert_keys_of_contains {M : Type} (m : List (String × VS.Document M))
    (k : String) (v : VS.Document M) (hc : (m.map Prod.fst).contains k = true) :
    (VS.mapInsert m k v).map Prod.fst = m.map Prod.fst := by
  rw [VS.mapInsert, if_pos hc, List.map_map]
  apply List.map_congr_left
  intro p _
  by_cases h1 : p.1 = k <;> simp [h1]

theorem vs_mapInsert_keys_nodup {M : Type} (m : List (String × VS.Document M))
    (k : String) (v : VS.Document M) (h : (m.map Prod.fst).Nodup) :
    ((VS.mapInsert m k v).map Prod.fst).Nodup := by
  by_cases hc : (m.map Prod.fst).contains k = true
  · rw [vs_mapInsert_keys_of_contains m k v hc]
    exact h
  · rw [VS.mapInsert, if_neg hc, List.map_append]
    have hnot : ¬ k ∈ m.map Prod.fst := by simpa using hc
    simp [List.nodup_append, h, hnot]

theorem vs_filter_map_replace {M : Type} (m : List (String × VS.Document M))
    (k : String) (v : VS.Document M) (hk : k ∈ m.map Prod.fst)
    (h : (m.map Prod.fst).Nodup) :
    ((m.map fun p => if p.1 = k then (k, v) else p).filter
      fun p => decide (p.1 = k)) = [(k, v)] := by
  induction m with
  | nil => simp at hk
  | cons a t ih =>
    simp only [List.map_cons, List.nodup_cons] at h
    obtain ⟨hak, ht⟩ := h
    by_cases ha : a.1 = k
    · simp only [List.map_cons, if_pos ha, List.filter_cons, decide_True, if_true]
      have htail : ((t.map fun p => if p.1 = k then (k, v) else p).filter
          fun p => decide (p.1 = k)) = [] := by
        apply List.filter_eq_nil.mpr
        intro q hq
        obtain ⟨p, hp, hpq⟩ := List.mem_map.mp hq
        have hpk : ¬ p.1 = k := fun hpk => hak (ha ▸ hpk ▸ List.mem_map_of_mem Prod.fst hp)
        rw [if_neg hpk] at hpq
        simp [← hpq, hpk]
      simp [htail]
    · have hk' : k ∈ t.map Prod.fst := by
        rcases List.mem_cons.mp hk with h1 | h1
        · exact absurd h1.symm ha
        · exact h1
      simp only [List.map_cons, if_neg ha, List.filter_cons]
      rw [if_neg (by simp [ha])]
      exact ih hk' ht

theorem vs_filter_mapInsert {M : Type} (m : List (String × VS.Document M))
    (k : String) (v : VS.Document M) (h : (m.map Prod.fst).Nodup) :
    ((VS.mapInsert m k v).filter fun p => decide (p.1 = k)) = [(k, v)] := by
  by_cases hc : (m.map Prod.fst).contains k = true
  · rw [VS.mapInsert, if_pos hc]
    exact vs_filter_map_replace m k v (by simpa using hc) h
  · rw [VS.mapInsert, if_neg hc, List.filter_append]
    have hnil : (m.filter fun p => decide (p.1 = k)) = [] := by
      apply List.filter_eq_nil.mpr
      intro p hp
      have : ¬ k ∈ m.map Prod.fst := by simpa using hc
      simp only [decide_eq_true_eq]
      exact fun hpk => this (hpk ▸ List.mem_map_of_mem Prod.fst hp)
    simp [hnil]

theorem vs_addDocument_snd {M : Type} (md5sum : String → List Nat)
    (store : List (String × VS.Document M)) (content : String) (md : M) :
    (VS.AddDocument md5sum store content md).2 =
      VS.mapInsert store (VS.hexOfBytes (md5sum content))
        ⟨VS.hexOfBytes (md5sum content), content, md,
          (VS.ChunkText content 1000).enum.map fun ic =>
            ⟨VS.hexOfBytes (md5sum content) ++ "_chunk_" ++ toString ic.1, ic.2, ic.1 + 1⟩⟩ :=
  rfl

/-- C10: `AddDocument` (part_004) keys a document by the lower-case hex MD5
digest of its content (`crypto/md5` is Go standard library, not repository
code, so the 16-byte digest is the parameter `md5sum`; the `%x` formatting is
concrete): the returned ID is `hexOfBytes (md5sum content)` for every store
and metadata; two calls with identical content return the same ID, and over
any store with Go-map-unique keys the second call leaves exactly one entry
under that ID, carrying the second call's metadata and content; the invariant
that every entry is keyed by the digest of its own content is preserved by
every insert, and under it two entries with distinct IDs have distinct
content. -/
theorem c10_addDocument_md5_identity :
    (∀ (M : Type) (md5sum : String → List Nat) (store : List (String × VS.Document M))
        (content : String) (md : M),
        (VS.AddDocument md5sum store content md).1 = VS.hexOfBytes (md5sum content)) ∧
    (∀ (M : Type) (md5sum : String → List Nat) (store : List (String × VS.Document M))
        (content : String) (m1 m2 : M), (store.map Prod.fst).Nodup →
        (VS.AddDocument md5sum (VS.AddDocument md5sum store content m1).2 content m2).1 =
            (VS.AddDocument md5sum store content m1).1 ∧
          ∃ d : VS.Document M,
            ((VS.AddDocument md5sum (VS.AddDocument md5sum store content m1).2 content m2).2.filter
                fun p => decide (p.1 = VS.hexOfBytes (md5sum content))) =
              [(VS.hexOfBytes (md5sum content), d)] ∧
            d.metadata = m2 ∧ d.content = content) ∧
    (∀ (M : Type) (md5sum : String → List Nat) (store : List (String × VS.Document M)),
        VS.StoreInv md5sum store →
        ∀ p ∈ store, ∀ q ∈ store, p.1 ≠ q.1 → p.2.content ≠ q.2.content) ∧
    (∀ (M : Type) (md5sum : String → List Nat) (store : List (String × VS.Document M))
        (content : String) (md : M),
        VS.StoreInv md5sum store →
        VS.StoreInv md5sum (VS.AddDocument md5sum store content md).2) := by
  refine ⟨?_, ?_, ?_, ?_⟩
  · intro M md5sum store content md
    rfl
  · intro M md5sum store content m1 m2 hnd
    refine ⟨rfl, ?_⟩
    have h1 : ((VS.AddDocument md5sum store content m1).2.map Prod.fst).Nodup := by
      rw [vs_addDocument_snd]
      exact vs_mapInsert_keys_nodup store _ _ hnd
    refine ⟨⟨VS.hexOfBytes (md5sum content), content, m2,
        (VS.ChunkText content 1000).enum.map fun ic =>
          ⟨VS.hexOfBytes (md5sum content) ++ "_chunk_" ++ toString ic.1, ic.2, ic.1 + 1⟩⟩,
      ?_, rfl, rfl⟩
    rw [vs_addDocument_snd md5sum (VS.AddDocument md5sum store content m1).2 content m2]
    exact vs_filter_mapInsert (VS.AddDocument md5sum store content m1).2
      (VS.hexOfBytes (md5sum content)) _ h1
  · intro M md5sum store hinv p hp q hq hne hcontent
    exact hne (((hinv p hp).1.trans (by rw [hcontent])).trans (hinv q hq).1.symm)
  · intro M md5sum store content md hinv p hp
    rw [vs_addDocument_snd, VS.mapInsert] at hp
    by_cases hc : (store.map Prod.fst).contains (VS.hexOfBytes (md5sum content)) = true
    · rw [if_pos hc] at hp
      obtain ⟨q, hq, hqp⟩ := List.mem_map.mp hp
      by_cases hq1 : q.1 = VS.hexOfBytes (md5sum content)
      · rw [if_pos hq1] at hqp
        simp [← hqp]
      · rw [if_neg hq1] at hqp
        exact hqp ▸ hinv q hq
    · rw [if_neg hc] at hp
      rcases List.mem_append.mp hp with h1 | h1
      · exact hinv p h1
      · have : p = (VS.hexOfBytes (md5sum content),
            ⟨VS.hexOfBytes (md5sum content), content, md,
              (VS.ChunkText content 1000).enum.map fun ic =>
                ⟨VS.hexOfBytes (md5sum content) ++ "_chunk_" ++ toString ic.1,
                  ic.2, ic.1 + 1⟩⟩) := by simpa using h1
        simp [this]

/-- Witness for C10's replacement clause at a concrete digest function and
store: adding `"ab"` twice (metadata 0 then 1) to the empty store returns the
same ID both times and leaves one entry, carrying metadata 1. -/
theorem c10_addDocument_md5_identity_witness :
    (VS.AddDocument (fun s => [s.data.length])
        (VS.AddDocument (fun s => [s.data.length])
          ([] : List (String × VS.Document Nat)) "ab" 0).2 "ab" 1).1 =
        (VS.AddDocument (fun s => [s.data.length])
          ([] : List (String × VS.Document Nat)) "ab" 0).1 ∧
      ∃ d : VS.Document Nat,
        ((VS.AddDocument (fun s => [s.data.length])
            (VS.AddDocument (fun s => [s.data.length])
              ([] : List (String × VS.Document Nat)) "ab" 0).2 "ab" 1).2.filter
            fun p => decide (p.1 = VS.hexOfBytes [("ab" : String).data.length])) =
          [(VS.hexOfBytes [("ab" : String).data.length], d)] ∧
        d.metadata = 1 ∧ d.content = "ab" :=
  c10_addDocument_md5_identity.2.1 Nat (fun s => [s.data.length]) [] "ab" 0 1 (by decide)
